import Mathlib

/-!
Verification of the async worker-pool engine of `dea/io/async.py`:
the single-stream async mapper `async_q2q_map`, the fan-out/fan-in pump
`q2q_nmap` (intake bridge, output bridge, terminator multiplication) and
the thread-pool wrapper `AsyncWorkerPool` (feed loop, drain loop).

Modelling conventions.
Queues carry either a real payload or the end-of-stream sentinel
`EOS_MARKER`; the Python code compares against the sentinel by identity
(`x is eos_marker`), which we model with a dedicated constructor `QItem.eos`.
Coroutines are embedded as functions from the sequence of values they
observe on their input channels (plus, where the code polls non-blockingly,
oracles describing the channel state at each poll) to the list of events
they perform, in program order.  Loops that in Python spin until an
external condition changes are given explicit fuel and return `Option`;
`none` means the fuel ran out before the loop finished.
-/

/-- Value travelling on a queue: a real payload or the `EOS_MARKER`
sentinel (identity comparison in Python becomes a constructor match). -/
inductive QItem (α : Type) where
  | item (a : α)
  | eos
  deriving DecidableEq, Repr

/-- Real payloads of a queue content list, in order (drops sentinels). -/
def realsOf {α : Type} (l : List (QItem α)) : List α :=
  l.filterMap (fun x => match x with | .item a => some a | .eos => none)

@[simp] theorem realsOf_nil {α : Type} : realsOf ([] : List (QItem α)) = [] := rfl

@[simp] theorem realsOf_cons_item {α : Type} (a : α) (l : List (QItem α)) :
    realsOf (.item a :: l) = a :: realsOf l := rfl

@[simp] theorem realsOf_cons_eos {α : Type} (l : List (QItem α)) :
    realsOf (.eos :: l) = realsOf l := rfl

@[simp] theorem realsOf_append {α : Type} (l l' : List (QItem α)) :
    realsOf (l ++ l') = realsOf l ++ realsOf l' := by
  simp [realsOf]

@[simp] theorem realsOf_map_item {α : Type} (l : List α) :
    realsOf (l.map QItem.item) = l := by
  induction l with
  | nil => rfl
  | cons a l ih => simp [ih]

@[simp] theorem realsOf_replicate_eos {α : Type} (n : Nat) :
    realsOf (List.replicate n (QItem.eos : QItem α)) = [] := by
  induction n with
  | zero => rfl
  | succ n ih => simpa [List.replicate] using ih

/-- Events performed by one run of the single-stream mapper
`async_q2q_map`, in program order. -/
inductive MapEv (α β : Type) where
  | take (x : QItem α)      -- `x = await q_in.get()`
  | put (y : QItem β)       -- `await q_out.put(...)`
  | logErr (e : String)     -- `log.error("Uncaught exception: ...")`
  | taskDone                -- `q_in.task_done()`
  deriving DecidableEq, Repr

/-- Shallow embedding of `async_q2q_map` from `dea/io/async.py`.

The argument list is the sequence of values successively returned by
`await q_in.get()`; the mapping function is embedded as
`α → Except String β`, where `Except.error e` models `func` raising an
exception whose string form is `e`.  The result is the trace of events the
coroutine performs.  Per the source: on the sentinel it optionally
re-emits it (when `eos_passthrough`), calls `task_done` and returns; on a
real item it calls `func`, on success puts the result, on exception logs
it and puts nothing, and in both cases calls `task_done` before the next
`get`. -/
def async_q2q_map {α β : Type} (func : α → Except String β) (eos_passthrough : Bool) :
    List (QItem α) → List (MapEv α β)
  | [] => []
  | .eos :: _ =>
      .take .eos :: ((if eos_passthrough then [MapEv.put .eos] else []) ++ [MapEv.taskDone])
  | .item a :: rest =>
      .take (.item a) ::
        ((match func a with
          | .ok b => [MapEv.put (.item b)]
          | .error e => [MapEv.logErr e]) ++
          MapEv.taskDone :: async_q2q_map func eos_passthrough rest)

/-- Values written by a mapper run to its output channel, in order. -/
def mapOutputs {α β : Type} (func : α → Except String β) (eos_passthrough : Bool)
    (l : List (QItem α)) : List (QItem β) :=
  (async_q2q_map func eos_passthrough l).filterMap
    (fun e => match e with | .put y => some y | _ => none)

def MapEv.isTake {α β : Type} : MapEv α β → Bool
  | .take _ => true
  | _ => false

def MapEv.isTaskDone {α β : Type} : MapEv α β → Bool
  | .taskDone => true
  | _ => false

/-- A trace is a sequence of per-item blocks, each of the form
`take x , (intermediate events) , task_done`, with no take and no
acknowledgment among the intermediate events: every consumed item is
acknowledged exactly once, before the next item is taken or the
coroutine returns. -/
inductive AckBalanced {α β : Type} : List (MapEv α β) → Prop
  | nil : AckBalanced []
  | block (x : QItem α) (mids rest : List (MapEv α β))
      (hmid : mids.all (fun e => !(e.isTake || e.isTaskDone)) = true)
      (hrest : AckBalanced rest) :
      AckBalanced (.take x :: mids ++ .taskDone :: rest)

theorem ackBalanced_async_q2q_map {α β : Type} (func : α → Except String β)
    (pt : Bool) (l : List (QItem α)) :
    AckBalanced (async_q2q_map func pt l) := by
  induction l with
  | nil => exact AckBalanced.nil
  | cons x rest ih =>
    cases x with
    | eos =>
      have h := AckBalanced.block (α := α) (β := β) QItem.eos
        (if pt then [MapEv.put .eos] else []) [] (by cases pt <;> simp [MapEv.isTake, MapEv.isTaskDone]) AckBalanced.nil
      simpa [async_q2q_map] using h
    | item a =>
      cases hf : func a with
      | ok b =>
        have h := AckBalanced.block (QItem.item a) [MapEv.put (.item b)]
          (async_q2q_map func pt rest) (by simp [MapEv.isTake, MapEv.isTaskDone]) ih
        simpa [async_q2q_map, hf] using h
      | error e =>
        have h := AckBalanced.block (QItem.item a) [MapEv.logErr e]
          (async_q2q_map func pt rest) (by simp [MapEv.isTake, MapEv.isTaskDone]) ih
        simpa [async_q2q_map, hf] using h

theorem takes_eq_taskDones {α β : Type} (func : α → Except String β)
    (pt : Bool) (l : List (QItem α)) :
    ((async_q2q_map func pt l).filter MapEv.isTake).length
      = ((async_q2q_map func pt l).filter MapEv.isTaskDone).length := by
  induction l with
  | nil => rfl
  | cons x rest ih =>
    cases x with
    | eos => cases pt <;> simp [async_q2q_map, MapEv.isTake, MapEv.isTaskDone]
    | item a =>
      cases hf : func a with
      | ok b => simpa [async_q2q_map, hf, MapEv.isTake, MapEv.isTaskDone] using ih
      | error e => simpa [async_q2q_map, hf, MapEv.isTake, MapEv.isTaskDone] using ih

/-- C3: `async_q2q_map` takes items in a loop; on the terminator it
re-emits the terminator to the output channel if and only if
`eos_passthrough` is enabled, acknowledges via `task_done`, and returns
(the rest of the stream is not consumed); and on every input stream each
consumed item — terminator and failing items included — is acknowledged
exactly once before the next take or the return, with the total number of
acknowledgments equal to the total number of takes. -/
theorem C3_terminator_and_ack_discipline {α β : Type} :
    ∀ (func : α → Except String β) (pt : Bool),
      (∀ rest : List (QItem α),
        async_q2q_map func pt (.eos :: rest)
          = .take .eos :: ((if pt then [MapEv.put .eos] else []) ++ [MapEv.taskDone])) ∧
      (∀ l : List (QItem α), AckBalanced (async_q2q_map func pt l)) ∧
      (∀ l : List (QItem α),
        ((async_q2q_map func pt l).filter MapEv.isTake).length
          = ((async_q2q_map func pt l).filter MapEv.isTaskDone).length) := by
  intro func pt
  exact ⟨fun _ => rfl, ackBalanced_async_q2q_map func pt, takes_eq_taskDones func pt⟩

/-- C4: for a non-terminator item, if the mapping function returns
normally exactly one result item (the returned value) is written to the
output channel; if it raises, the exception is caught and logged, zero
result items are written, and the loop continues with the remaining
stream (no propagation). -/
theorem C4_one_result_or_logged_drop {α β : Type} (func : α → Except String β)
    (pt : Bool) (a : α) (rest : List (QItem α)) :
    (∀ b, func a = .ok b →
      async_q2q_map func pt (.item a :: rest)
        = .take (.item a) :: .put (.item b) :: .taskDone :: async_q2q_map func pt rest) ∧
    (∀ e, func a = .error e →
      async_q2q_map func pt (.item a :: rest)
        = .take (.item a) :: .logErr e :: .taskDone :: async_q2q_map func pt rest) := by
  constructor
  · intro b hb
    simp [async_q2q_map, hb]
  · intro e he
    simp [async_q2q_map, he]

theorem C4_one_result_or_logged_drop_witness :
    (fun n : Nat => if n = 0 then Except.ok 7 else Except.error "boom") 0 = Except.ok 7 ∧
    async_q2q_map (fun n : Nat => if n = 0 then Except.ok 7 else Except.error "boom") false
        (.item 0 :: [.eos])
      = .take (.item 0) :: .put (.item 7) :: .taskDone ::
          async_q2q_map (fun n : Nat => if n = 0 then Except.ok 7 else Except.error "boom") false [.eos] ∧
    (fun n : Nat => if n = 0 then Except.ok 7 else Except.error "boom") 1 = Except.error "boom" ∧
    async_q2q_map (fun n : Nat => if n = 0 then Except.ok 7 else Except.error "boom") false
        (.item 1 :: [.eos])
      = .take (.item 1) :: .logErr "boom" :: .taskDone ::
          async_q2q_map (fun n : Nat => if n = 0 then Except.ok 7 else Except.error "boom") false [.eos] := by
  refine ⟨rfl, ?_, rfl, ?_⟩
  · exact (C4_one_result_or_logged_drop
      (fun n : Nat => if n = 0 then Except.ok 7 else Except.error "boom") false 0 [.eos]).1 7 rfl
  · exact (C4_one_result_or_logged_drop
      (fun n : Nat => if n = 0 then Except.ok 7 else Except.error "boom") false 1 [.eos]).2 "boom" rfl

/-!
Fan-out consumption model.

`q2q_nmap`'s intake bridge and `AsyncWorkerPool.map`'s feed loop put a FIFO
stream of values on a shared channel that is drained concurrently by `N`
consumers (the per-thread intake loops at the pool level, the `nconcurrent`
mapper coroutines at the pump level).  FIFO order means successive dequeues
remove successive stream elements; the only nondeterminism is which consumer
performs each dequeue.  We model a run by a schedule `σ : List (Fin N)`
naming, for each successively dequeued element, the consumer that took it.
A consumer stops permanently after taking the sentinel, so in an admissible
run the sentinel occurs in a consumer's subsequence only as its last
element (`wellConsumed`); `QItem.eos ∈ consumedBy` says the consumer has
seen its sentinel and exited.
-/

/-- A consumer's view of a shared FIFO stream is admissible when the
sentinel appears only as the last element it dequeued (an intake loop
breaks on the sentinel and never resumes). -/
def wellConsumed {α : Type} : List (QItem α) → Bool
  | [] => true
  | .eos :: rest => rest.isEmpty
  | .item _ :: rest => wellConsumed rest

/-- Elements of stream `fed` dequeued by consumer `w` under schedule `σ`,
in FIFO order. -/
def consumedBy {α : Type} {N : Nat} (σ : List (Fin N)) (fed : List (QItem α))
    (w : Fin N) : List (QItem α) :=
  ((σ.zip fed).filter (fun p => decide (p.1 = w))).map Prod.snd

theorem zip_map_snd {ι γ : Type} (σ : List ι) (l : List γ) :
    (σ.zip l).map Prod.snd = l.take σ.length := by
  induction σ generalizing l with
  | nil => simp
  | cons i σ ih =>
    cases l with
    | nil => simp
    | cons x l => simp [ih]

theorem filter_fst_map_snd_sum {γ : Type} {N : Nat} (l : List (Fin N × γ)) :
    ∑ w : Fin N, (((l.filter (fun p => decide (p.1 = w))).map Prod.snd : List γ) : Multiset γ)
      = ((l.map Prod.snd : List γ) : Multiset γ) := by
  induction l with
  | nil => simp
  | cons p l ih =>
    obtain ⟨i, x⟩ := p
    have step : ∀ w : Fin N,
        ((((i, x) :: l).filter (fun p => decide (p.1 = w))).map Prod.snd : Multiset γ)
          = (if i = w then ({x} : Multiset γ) else 0)
            + (((l.filter (fun p => decide (p.1 = w))).map Prod.snd : List γ) : Multiset γ) := by
      intro w
      by_cases h : i = w
      · simp [List.filter_cons, h, Multiset.singleton_add]
      · simp [List.filter_cons, h]
    calc ∑ w : Fin N, (((((i, x) :: l).filter (fun p => decide (p.1 = w))).map Prod.snd : List γ) : Multiset γ)
        = ∑ w : Fin N, ((if i = w then ({x} : Multiset γ) else 0)
            + (((l.filter (fun p => decide (p.1 = w))).map Prod.snd : List γ) : Multiset γ)) :=
          Finset.sum_congr rfl (fun w _ => step w)
      _ = (∑ w : Fin N, if i = w then ({x} : Multiset γ) else 0)
            + ∑ w : Fin N, (((l.filter (fun p => decide (p.1 = w))).map Prod.snd : List γ) : Multiset γ) :=
          Finset.sum_add_distrib
      _ = ({x} : Multiset γ) + ((l.map Prod.snd : List γ) : Multiset γ) := by
          rw [Fintype.sum_ite_eq, ih]
      _ = ((((i, x) :: l).map Prod.snd : List γ) : Multiset γ) := by
          simp [Multiset.singleton_add]

theorem consumedBy_sum {α : Type} {N : Nat} (σ : List (Fin N)) (fed : List (QItem α)) :
    ∑ w : Fin N, ((consumedBy σ fed w : List (QItem α)) : Multiset (QItem α))
      = ((fed.take σ.length : List (QItem α)) : Multiset (QItem α)) := by
  unfold consumedBy
  rw [filter_fst_map_snd_sum (σ.zip fed), zip_map_snd]

theorem wellConsumed_struct {α : Type} :
    ∀ l : List (QItem α), wellConsumed l = true → QItem.eos ∈ l →
      l = (realsOf l).map QItem.item ++ [QItem.eos] := by
  intro l
  induction l with
  | nil => intro _ h; cases h
  | cons x rest ih =>
    intro hw hm
    cases x with
    | eos =>
      have hrest : rest = [] := by
        simpa [wellConsumed, List.isEmpty_iff] using hw
      subst hrest; rfl
    | item a =>
      have hw' : wellConsumed rest = true := by simpa [wellConsumed] using hw
      have hm' : QItem.eos ∈ rest := by
        rcases List.mem_cons.mp hm with h | h
        · cases h
        · exact h
      have := ih hw' hm'
      simpa using congrArg (fun t => QItem.item a :: t) this

theorem count_eos_of_wellConsumed {α : Type} [DecidableEq α] (l : List (QItem α))
    (hw : wellConsumed l = true) (hm : QItem.eos ∈ l) :
    l.count QItem.eos = 1 := by
  rw [wellConsumed_struct l hw hm]
  rw [List.count_append]
  have h0 : ((realsOf l).map QItem.item).count QItem.eos = 0 := by
    apply List.count_eq_zero.mpr
    intro hmem
    rcases List.mem_map.mp hmem with ⟨a, _, ha⟩
    cases ha
  simp [h0]

theorem count_eos_take {α : Type} [DecidableEq α] (A : List α) (K L : Nat) :
    (((A.map QItem.item ++ List.replicate K (QItem.eos : QItem α)).take L).count QItem.eos)
      = min (L - A.length) K := by
  rw [List.take_append_eq_append_take, List.count_append]
  have h0 : (((A.map QItem.item).take L).count QItem.eos) = 0 := by
    apply List.count_eq_zero.mpr
    intro hmem
    rcases List.mem_map.mp (List.mem_of_mem_take hmem) with ⟨a, _, ha⟩
    cases ha
  rw [h0, List.take_replicate]
  simp

/-- In a run where every one of the `N` consumers of the stream
`A.map item ++ replicate N eos` has stopped (seen its sentinel), the whole
stream has been dequeued: there are exactly `N` sentinels, all at the
tail, and each consumer absorbs exactly one. -/
theorem sched_covers {α : Type} [DecidableEq α] {N : Nat} (hN : 0 < N)
    (A : List α) (σ : List (Fin N))
    (hlen : σ.length ≤ A.length + N)
    (hadm : ∀ w, wellConsumed
      (consumedBy σ (A.map QItem.item ++ List.replicate N QItem.eos) w) = true)
    (hstop : ∀ w, QItem.eos ∈
      consumedBy σ (A.map QItem.item ++ List.replicate N QItem.eos) w) :
    σ.length = A.length + N := by
  have hsum := consumedBy_sum σ (A.map QItem.item ++ List.replicate N QItem.eos)
  have hcnt := congrArg (Multiset.count QItem.eos) hsum
  have hhom : Multiset.count (QItem.eos : QItem α)
      (∑ w : Fin N, ((consumedBy σ (A.map QItem.item ++ List.replicate N QItem.eos) w : List (QItem α)) : Multiset (QItem α)))
      = ∑ w : Fin N, Multiset.count (QItem.eos : QItem α)
          ((consumedBy σ (A.map QItem.item ++ List.replicate N QItem.eos) w : List (QItem α)) : Multiset (QItem α)) := by
    simpa only [Multiset.coe_countAddMonoidHom] using
      map_sum (Multiset.countAddMonoidHom (QItem.eos : QItem α))
        (fun w => ((consumedBy σ (A.map QItem.item ++ List.replicate N QItem.eos) w : List (QItem α)) : Multiset (QItem α)))
        Finset.univ
  rw [hhom, Multiset.coe_count] at hcnt
  have hone : ∀ w : Fin N,
      Multiset.count QItem.eos
        ((consumedBy σ (A.map QItem.item ++ List.replicate N QItem.eos) w : List (QItem α)) : Multiset (QItem α)) = 1 := by
    intro w
    rw [Multiset.coe_count]
    exact count_eos_of_wellConsumed _ (hadm w) (hstop w)
  rw [Finset.sum_congr rfl (fun w _ => hone w)] at hcnt
  rw [count_eos_take] at hcnt
  simp at hcnt
  omega

/-- Injectivity of the payload constructor. -/
theorem item_injective {α : Type} : Function.Injective (QItem.item : α → QItem α) := by
  intro a b h
  injection h

theorem coe_struct {α : Type} (l : List (QItem α))
    (hw : wellConsumed l = true) (hm : QItem.eos ∈ l) :
    (l : Multiset (QItem α))
      = Multiset.map QItem.item ((realsOf l : List α) : Multiset α) + {QItem.eos} := by
  conv_lhs => rw [wellConsumed_struct l hw hm]
  rw [Multiset.map_coe, ← Multiset.coe_singleton, Multiset.coe_add]

/-- Under the hypotheses of `sched_covers`, the real payloads dequeued by
the `N` consumers partition the real payloads of the stream: summed as
multisets they give back exactly `A`. -/
theorem reals_sum {α : Type} [DecidableEq α] {N : Nat} (hN : 0 < N)
    (A : List α) (σ : List (Fin N))
    (hlen : σ.length ≤ A.length + N)
    (hadm : ∀ w, wellConsumed
      (consumedBy σ (A.map QItem.item ++ List.replicate N QItem.eos) w) = true)
    (hstop : ∀ w, QItem.eos ∈
      consumedBy σ (A.map QItem.item ++ List.replicate N QItem.eos) w) :
    ∑ w : Fin N, ((realsOf (consumedBy σ (A.map QItem.item ++ List.replicate N QItem.eos) w) : List α) : Multiset α)
      = (A : Multiset α) := by
  have hcov := sched_covers hN A σ hlen hadm hstop
  have hsum := consumedBy_sum σ (A.map QItem.item ++ List.replicate N QItem.eos)
  rw [hcov] at hsum
  have hfull : (A.map QItem.item ++ List.replicate N (QItem.eos : QItem α)).take (A.length + N)
      = A.map QItem.item ++ List.replicate N QItem.eos :=
    List.take_of_length_le (by simp)
  rw [hfull] at hsum
  have hstruct : ∀ w, (consumedBy σ (A.map QItem.item ++ List.replicate N QItem.eos) w : List (QItem α))
      = (realsOf (consumedBy σ (A.map QItem.item ++ List.replicate N QItem.eos) w)).map QItem.item
          ++ [QItem.eos] :=
    fun w => wellConsumed_struct _ (hadm w) (hstop w)
  have hsum' : ∑ w : Fin N,
      (Multiset.map QItem.item ((realsOf (consumedBy σ (A.map QItem.item ++ List.replicate N QItem.eos) w) : List α) : Multiset α)
        + ({QItem.eos} : Multiset (QItem α)))
      = Multiset.map QItem.item (A : Multiset α) + N • ({QItem.eos} : Multiset (QItem α)) := by
    calc ∑ w : Fin N,
        (Multiset.map QItem.item ((realsOf (consumedBy σ (A.map QItem.item ++ List.replicate N QItem.eos) w) : List α) : Multiset α)
          + ({QItem.eos} : Multiset (QItem α)))
        = ∑ w : Fin N, ((consumedBy σ (A.map QItem.item ++ List.replicate N QItem.eos) w : List (QItem α)) : Multiset (QItem α)) := by
          refine Finset.sum_congr rfl (fun w _ => ?_)
          exact (coe_struct _ (hadm w) (hstop w)).symm
      _ = ((A.map QItem.item ++ List.replicate N (QItem.eos : QItem α) : List (QItem α)) : Multiset (QItem α)) := hsum
      _ = Multiset.map QItem.item (A : Multiset α) + N • ({QItem.eos} : Multiset (QItem α)) := by
          simp [Multiset.map_coe, Multiset.nsmul_singleton]
          rfl
  rw [Finset.sum_add_distrib] at hsum'
  simp only [Finset.sum_const, Finset.card_univ, Fintype.card_fin] at hsum'
  have hcancel := add_right_cancel hsum'
  have hpull : ∑ w : Fin N,
      Multiset.map (QItem.item : α → QItem α)
        ((realsOf (consumedBy σ (A.map QItem.item ++ List.replicate N QItem.eos) w) : List α) : Multiset α)
      = Multiset.map (QItem.item : α → QItem α)
          (∑ w : Fin N, ((realsOf (consumedBy σ (A.map QItem.item ++ List.replicate N QItem.eos) w) : List α) : Multiset α)) := by
    simpa only [Multiset.coe_mapAddMonoidHom] using
      (map_sum (Multiset.mapAddMonoidHom (QItem.item : α → QItem α))
        (fun w => ((realsOf (consumedBy σ (A.map QItem.item ++ List.replicate N QItem.eos) w) : List α) : Multiset α))
        Finset.univ).symm
  rw [hpull] at hcancel
  exact Multiset.map_injective item_injective hcancel

theorem mapOutputs_ok {α β : Type} (f : α → β) (A : List α) :
    mapOutputs (fun a => Except.ok (f a)) false (A.map QItem.item ++ [QItem.eos])
      = (A.map f).map QItem.item := by
  induction A with
  | nil => rfl
  | cons a A ih =>
    simpa [mapOutputs, async_q2q_map] using ih

/-!
Pool data model (`AsyncWorkerPool.__init__` and the head of `map`).

The Python object holds a `ThreadPoolExecutor(nthreads)` (modelled by its
worker count), a list of `nthreads` private event loops (modelled by
identifiers), the two configuration numbers, and the two shared blocking
queues `_q1`/`_q2` (modelled by their `maxsize`, the only attribute the
core logic reads).
-/

structure AsyncWorkerPool where
  _pool : Nat
  _loops : List Nat
  _nthreads : Nat
  _default_tasks_per_thread : Nat
  _q1 : Nat
  _q2 : Nat
  deriving DecidableEq, Repr

/-- Shallow embedding of `AsyncWorkerPool.__init__`: when `max_buffer` is
not supplied it defaults to `min 100 (nthreads*tasks_per_thread*2)`; `N`
private event loops are created and both shared queues get capacity
`max_buffer`. -/
def AsyncWorkerPool.init (nthreads tasks_per_thread : Nat)
    (max_buffer : Option Nat) : AsyncWorkerPool :=
  let mb := match max_buffer with
    | none => min 100 (nthreads * tasks_per_thread * 2)
    | some c => c
  { _pool := nthreads
    _loops := List.range nthreads
    _nthreads := nthreads
    _default_tasks_per_thread := tasks_per_thread
    _q1 := mb
    _q2 := mb }

/-- FIFO content of a worker thread's private async input channel `aq_in`
over a whole run: the intake loop forwards, in order, the real payloads it
dequeued from the shared feed channel, then injects `M` sentinels (one per
mapper coroutine). -/
def aqFeed {α : Type} {N : Nat} (M : Nat) (σ : List (Fin N)) (fed : List (QItem α))
    (w : Fin N) : List (QItem α) :=
  (realsOf (consumedBy σ fed w)).map QItem.item ++ List.replicate M QItem.eos

/-- One nondeterministic run of `AsyncWorkerPool.map`'s data flow:
`fedItems` is the caller's iterable as fed (followed by `N` sentinels per
the source), `sched` fixes which of the `N` thread-level intake loops
dequeued each successive feed-channel element, and `inner w` fixes which
of the `M` mapper coroutines of thread `w` dequeued each successive
element of that thread's `aq_in`.  The admissibility fields say each
consumer stopped at its first sentinel and (via membership) eventually
received one. -/
structure PoolRun (N M : Nat) {α β : Type} (func : α → Except String β)
    (fedItems : List (QItem α)) where
  sched : List (Fin N)
  inner : Fin N → List (Fin M)
  hlen : sched.length ≤ (fedItems ++ List.replicate N QItem.eos).length
  hadm : ∀ w, wellConsumed
    (consumedBy sched (fedItems ++ List.replicate N QItem.eos) w) = true
  hstop : ∀ w, QItem.eos ∈
    consumedBy sched (fedItems ++ List.replicate N QItem.eos) w
  hinner_len : ∀ w, (inner w).length
    ≤ (aqFeed M sched (fedItems ++ List.replicate N QItem.eos) w).length
  hinner_adm : ∀ w m, wellConsumed
    (consumedBy (inner w) (aqFeed M sched (fedItems ++ List.replicate N QItem.eos) w) m) = true
  hinner_stop : ∀ w m, QItem.eos ∈
    consumedBy (inner w) (aqFeed M sched (fedItems ++ List.replicate N QItem.eos) w) m

/-- Multiset of results a worker thread's output bridge moves to the
shared result channel: the fan-in of its `M` mappers' outputs (the output
bridge forwards every non-sentinel `aq_out` element, and with
`eos_passthrough=False` the mappers emit no sentinel). -/
def PoolRun.threadOutput {N M : Nat} {α β : Type} {func : α → Except String β}
    {fedItems : List (QItem α)} (run : PoolRun N M func fedItems) (w : Fin N) :
    Multiset β :=
  ∑ m : Fin M,
    ((realsOf (mapOutputs func false
      (consumedBy (run.inner w)
        (aqFeed M run.sched (fedItems ++ List.replicate N QItem.eos) w) m)) : List β) : Multiset β)

/-- Multiset of results the generator yields over the whole run: the
drain loop exits only once all worker jobs are finished and the result
channel is empty, so every thread's output is yielded. -/
def PoolRun.yields {N M : Nat} {α β : Type} {func : α → Except String β}
    {fedItems : List (QItem α)} (run : PoolRun N M func fedItems) : Multiset β :=
  ∑ w : Fin N, run.threadOutput w


theorem poolRun_yields {α β : Type} [DecidableEq α] {N M : Nat}
    (hN : 0 < N) (hM : 0 < M) (f : α → β) (items : List α)
    (run : PoolRun N M (fun a => Except.ok (f a)) (items.map QItem.item)) :
    run.yields = Multiset.map f ((items : List α) : Multiset α)
      ∧ Multiset.card run.yields = items.length := by
  have hout : ∀ (w : Fin N) (m : Fin M),
      realsOf (mapOutputs (fun a => Except.ok (f a)) false
        (consumedBy (run.inner w)
          (aqFeed M run.sched (items.map QItem.item ++ List.replicate N QItem.eos) w) m))
      = (realsOf (consumedBy (run.inner w)
          (aqFeed M run.sched (items.map QItem.item ++ List.replicate N QItem.eos) w) m)).map f := by
    intro w m
    have hs := wellConsumed_struct _ (run.hinner_adm w m) (run.hinner_stop w m)
    conv_lhs => rw [hs]
    rw [mapOutputs_ok]
    rw [realsOf_map_item]
  have hinner : ∀ w : Fin N,
      ∑ m : Fin M,
        ((realsOf (consumedBy (run.inner w)
          (aqFeed M run.sched (items.map QItem.item ++ List.replicate N QItem.eos) w) m) : List α) : Multiset α)
      = ((realsOf (consumedBy run.sched (items.map QItem.item ++ List.replicate N QItem.eos) w) : List α) : Multiset α) := by
    intro w
    have := reals_sum (α := α) hM
      (realsOf (consumedBy run.sched (items.map QItem.item ++ List.replicate N QItem.eos) w))
      (run.inner w)
      (by simpa [aqFeed] using run.hinner_len w)
      (by simpa [aqFeed] using run.hinner_adm w)
      (by simpa [aqFeed] using run.hinner_stop w)
    simpa [aqFeed] using this
  have houter : ∑ w : Fin N,
      ((realsOf (consumedBy run.sched (items.map QItem.item ++ List.replicate N QItem.eos) w) : List α) : Multiset α)
      = ((items : List α) : Multiset α) := by
    exact reals_sum (α := α) hN items run.sched
      (by simpa using run.hlen) run.hadm run.hstop
  have hyields : run.yields = Multiset.map f ((items : List α) : Multiset α) := by
    unfold PoolRun.yields PoolRun.threadOutput
    have hthread : ∀ w : Fin N,
        (∑ m : Fin M,
          ((realsOf (mapOutputs (fun a => Except.ok (f a)) false
            (consumedBy (run.inner w)
              (aqFeed M run.sched (items.map QItem.item ++ List.replicate N QItem.eos) w) m)) : List β) : Multiset β))
        = Multiset.map f
            ((realsOf (consumedBy run.sched (items.map QItem.item ++ List.replicate N QItem.eos) w) : List α) : Multiset α) := by
      intro w
      have hmaps : ∀ m : Fin M,
          ((realsOf (mapOutputs (fun a => Except.ok (f a)) false
            (consumedBy (run.inner w)
              (aqFeed M run.sched (items.map QItem.item ++ List.replicate N QItem.eos) w) m)) : List β) : Multiset β)
          = Multiset.map f
              ((realsOf (consumedBy (run.inner w)
                (aqFeed M run.sched (items.map QItem.item ++ List.replicate N QItem.eos) w) m) : List α) : Multiset α) := by
        intro m
        rw [hout w m, ← Multiset.map_coe]
      rw [Finset.sum_congr rfl (fun m _ => hmaps m)]
      have hpull :
          ∑ m : Fin M, Multiset.map f
            ((realsOf (consumedBy (run.inner w)
              (aqFeed M run.sched (items.map QItem.item ++ List.replicate N QItem.eos) w) m) : List α) : Multiset α)
          = Multiset.map f (∑ m : Fin M,
            ((realsOf (consumedBy (run.inner w)
              (aqFeed M run.sched (items.map QItem.item ++ List.replicate N QItem.eos) w) m) : List α) : Multiset α)) := by
        simpa only [Multiset.coe_mapAddMonoidHom] using
          (map_sum (Multiset.mapAddMonoidHom f)
            (fun m : Fin M =>
              ((realsOf (consumedBy (run.inner w)
                (aqFeed M run.sched (items.map QItem.item ++ List.replicate N QItem.eos) w) m) : List α) : Multiset α))
            Finset.univ).symm
      rw [hpull, hinner w]
    rw [Finset.sum_congr rfl (fun w _ => hthread w)]
    have hpull2 :
        ∑ w : Fin N, Multiset.map f
          ((realsOf (consumedBy run.sched (items.map QItem.item ++ List.replicate N QItem.eos) w) : List α) : Multiset α)
        = Multiset.map f (∑ w : Fin N,
          ((realsOf (consumedBy run.sched (items.map QItem.item ++ List.replicate N QItem.eos) w) : List α) : Multiset α)) := by
      simpa only [Multiset.coe_mapAddMonoidHom] using
        (map_sum (Multiset.mapAddMonoidHom f)
          (fun w : Fin N =>
            ((realsOf (consumedBy run.sched (items.map QItem.item ++ List.replicate N QItem.eos) w) : List α) : Multiset α))
          Finset.univ).symm
    rw [hpull2, houter]
  refine ⟨hyields, ?_⟩
  rw [hyields]
  simp

/-- C1: for every finite input iterable of size `n` and every mapping
function that never raises, every admissible run of
`AsyncWorkerPool.map` (one intake loop per pool thread, the pool's
configured tasks-per-thread mappers on each) yields exactly `n` results,
and the multiset of yielded results equals the multiset of
`function(item)` over all items; the schedule — hence the order — is
arbitrary. -/
theorem C1_map_yields_exact_multiset {α β : Type} [DecidableEq α]
    (p : AsyncWorkerPool) (f : α → β) (items : List α)
    (hN : 0 < p._loops.length) (hM : 0 < p._default_tasks_per_thread)
    (run : PoolRun p._loops.length p._default_tasks_per_thread
      (fun a => Except.ok (f a)) (items.map QItem.item)) :
    run.yields = Multiset.map f ((items : List α) : Multiset α)
      ∧ Multiset.card run.yields = items.length :=
  poolRun_yields hN hM f items run

/-- Concrete run for the witness: one thread, one mapper per thread,
input `[5]`, mapping `a+1`. -/
def c1run : PoolRun 1 1 (fun a : Nat => Except.ok (a + 1)) ([5].map QItem.item) where
  sched := [0, 0]
  inner := fun _ => [0, 0]
  hlen := by decide
  hadm := by decide
  hstop := by decide
  hinner_len := by decide
  hinner_adm := by decide
  hinner_stop := by decide

theorem C1_map_yields_exact_multiset_witness :
    0 < (AsyncWorkerPool.init 1 1 none)._loops.length ∧
    c1run.yields = Multiset.map (fun a : Nat => a + 1) (([5] : List Nat) : Multiset Nat) ∧
    Multiset.card c1run.yields = 1 := by
  have h := C1_map_yields_exact_multiset (AsyncWorkerPool.init 1 1 none)
    (fun a : Nat => a + 1) [5] (by decide) (by decide) c1run
  exact ⟨by decide, h.1, h.2⟩

/-- Concrete run for C10: two threads, one mapper each; the caller's
iterable is `[EOS_MARKER, 5]`, i.e. it contains the module's own sentinel
as an element; `map` appends one sentinel per worker, so the feed channel
carries `[eos, item 5, eos, eos]`.  Worker 0 dequeues the inline
sentinel, worker 1 dequeues the real item and one appended sentinel;
the last appended sentinel is never consumed. -/
def c10run : PoolRun 2 1 (fun a : Nat => Except.ok (a + 1)) [QItem.eos, QItem.item 5] where
  sched := [0, 1, 1]
  inner := fun w => if w = 0 then [0] else [0, 0]
  hlen := by decide
  hadm := by decide
  hstop := by decide
  hinner_len := by decide
  hinner_adm := by decide
  hinner_stop := by decide

/-- C10: if the caller's iterable itself contains the terminator
sentinel, the worker that dequeues it treats it as end-of-stream — it is
never passed to the mapping function (that worker's dequeued reals are
empty and its intake stops at the sentinel) — while a later item is
consumed by the other worker; the run yields 1 result for an iterable of
length 2, so the exactly-n-results guarantee fails for such inputs. -/
theorem C10_inline_terminator_not_mapped :
    consumedBy c10run.sched ([QItem.eos, QItem.item 5] ++ List.replicate 2 QItem.eos)
        (0 : Fin 2) = [QItem.eos]
    ∧ realsOf (consumedBy c10run.sched ([QItem.eos, QItem.item 5] ++ List.replicate 2 QItem.eos)
        (0 : Fin 2)) = []
    ∧ consumedBy c10run.sched ([QItem.eos, QItem.item 5] ++ List.replicate 2 QItem.eos)
        (1 : Fin 2) = [QItem.item 5, QItem.eos]
    ∧ c10run.yields = {6}
    ∧ Multiset.card c10run.yields ≠ ([QItem.eos, QItem.item (5 : Nat)]).length := by
  refine ⟨by decide, by decide, by decide, by decide, by decide⟩

/-!
Pump-level traces (`q2q_nmap`).

The pump coroutine spawns `nconcurrent` mappers (pass-through disabled)
and the output bridge, then runs the intake bridge to completion, then
shuts the output side down.  We embed the intake bridge, the non-blocking
put with backoff, the output bridge, and the pump's own sequential body.
-/

/-- Events performed by the pump coroutine (intake bridge + shutdown). -/
inductive PEv (α β : Type) where
  | sleep                    -- backoff sleep when the feed poll came back empty
  | srcTaskDone              -- `src.task_done()`
  | aqInPut (x : QItem α)    -- `await dst.put(x)` into `aq_in`
  | aqInJoin                 -- `await dst.join()` on `aq_in` (drain barrier)
  | aqOutPut (y : QItem β)   -- `await aq_out.put(eos_marker)`
  | aqOutJoin                -- `await aq_out.join()`
  | qOutPut (y : QItem β)    -- successful `q_out.put_nowait` via `push_to_dst`
  | qOutSleep                -- backoff sleep inside the final `push_to_dst`
  deriving DecidableEq, Repr

/-- Shallow embedding of `q2q_nmap.intake_loop`.  `polls` is the sequence
of outcomes of successive `safe_get(src)` calls (`none` = `queue.Empty`).
On empty it sleeps; on a real item it forwards to `aq_in` then
acknowledges; on the terminator it acknowledges, breaks, injects
`nconcurrent` terminators into `aq_in` and waits on the drain barrier.
Returns `none` when the poll stream ends before a terminator was seen
(the Python loop would still be polling). -/
def intake_loop {α β : Type} (nconcurrent : Nat) :
    List (Option (QItem α)) → Option (List (PEv α β))
  | [] => none
  | none :: rest =>
      (intake_loop nconcurrent rest).map (fun tr => PEv.sleep :: tr)
  | some (QItem.item a) :: rest =>
      (intake_loop nconcurrent rest).map
        (fun tr => PEv.aqInPut (QItem.item a) :: PEv.srcTaskDone :: tr)
  | some QItem.eos :: _ =>
      some (PEv.srcTaskDone ::
        (List.replicate nconcurrent (PEv.aqInPut QItem.eos) ++ [PEv.aqInJoin]))

/-- `safe_put` from the source: non-blocking put that fails when the
destination queue is at capacity. -/
def safe_put {γ : Type} (x : γ) (dst : List γ) (maxsize : Nat) : List γ × Bool :=
  if dst.length < maxsize then (dst ++ [x], true) else (dst, false)

inductive PushStep (γ : Type) where
  | sleepStep
  | putStep (x : γ)
  deriving DecidableEq, Repr

/-- `push_to_dst` from the source: retry `safe_put` with a sleep between
attempts.  `qs t` is the externally evolving content of the destination
blocking queue at attempt `t` (its consumers run on other threads);
`fuel` bounds the number of attempts, `none` meaning the queue stayed
full throughout. -/
def push_to_dst {γ : Type} (x : γ) (qs : Nat → List γ) (maxsize : Nat) :
    Nat → Nat → Option (List (PushStep γ) × Nat)
  | 0, _ => none
  | fuel + 1, t =>
      if (safe_put x (qs t) maxsize).2 then
        some ([PushStep.putStep x], t + 1)
      else
        (push_to_dst x qs maxsize fuel (t + 1)).map
          (fun p => (PushStep.sleepStep :: p.1, p.2))

/-- Events of the output bridge `q2q_nmap.output_loop`. -/
inductive OEv (β : Type) where
  | take (y : QItem β)       -- `x = await src.get()` from `aq_out`
  | qPut (y : QItem β)       -- successful `dst.put_nowait` into `q_out`
  | qSleep                   -- backoff sleep inside `push_to_dst`
  | srcTaskDone              -- `src.task_done()`
  deriving DecidableEq, Repr

def stepToOEv {β : Type} : PushStep (QItem β) → OEv β
  | PushStep.sleepStep => OEv.qSleep
  | PushStep.putStep y => OEv.qPut y

/-- Shallow embedding of `q2q_nmap.output_loop`: drain `aq_out` (its
content over the run is the argument list, in FIFO order); on the
terminator acknowledge and stop; otherwise push to the blocking result
channel with backoff, then acknowledge. -/
def output_loop {β : Type} (qs : Nat → List (QItem β)) (maxsize fuel : Nat) :
    List (QItem β) → Nat → Option (List (OEv β))
  | [], _ => none
  | QItem.eos :: _, _ => some [OEv.take QItem.eos, OEv.srcTaskDone]
  | QItem.item y :: rest, t =>
      match push_to_dst (QItem.item y) qs maxsize fuel t with
      | none => none
      | some (steps, t') =>
          (output_loop qs maxsize fuel rest t').map
            (fun tr => OEv.take (QItem.item y) ::
              (steps.map stepToOEv ++ OEv.srcTaskDone :: tr))

/-- The pump body of `q2q_nmap` after spawning mappers and output bridge:
run the intake bridge to completion, then put one terminator into
`aq_out` and wait for its acknowledgment, then — only when
`eos_passthrough` — push one terminator into the blocking result channel
with backoff. -/
def q2q_nmap_pump {α β : Type} (nconcurrent : Nat) (eos_passthrough : Bool)
    (polls : List (Option (QItem α))) (qs : Nat → List (QItem β))
    (maxsize fuel : Nat) : Option (List (PEv α β)) :=
  match intake_loop (α := α) (β := β) nconcurrent polls with
  | none => none
  | some tr =>
      if eos_passthrough then
        match push_to_dst (QItem.eos : QItem β) qs maxsize fuel 0 with
        | none => none
        | some (steps, _) =>
            some (tr ++ [PEv.aqOutPut QItem.eos, PEv.aqOutJoin]
              ++ steps.map (fun s => match s with
                  | PushStep.putStep y => PEv.qOutPut y
                  | PushStep.sleepStep => PEv.qOutSleep))
      else
        some (tr ++ [PEv.aqOutPut QItem.eos, PEv.aqOutJoin])

theorem intake_loop_shape {α β : Type} [DecidableEq α] [DecidableEq β]
    (nconcurrent : Nat) :
    ∀ (polls : List (Option (QItem α))) (tr : List (PEv α β)),
      intake_loop nconcurrent polls = some tr →
      ∃ pre, tr = pre ++ (List.replicate nconcurrent (PEv.aqInPut QItem.eos) ++ [PEv.aqInJoin])
        ∧ pre.count (PEv.aqInPut (QItem.eos : QItem α) : PEv α β) = 0
        ∧ pre.count (PEv.aqInJoin : PEv α β) = 0
        ∧ pre.count (PEv.aqOutPut (QItem.eos : QItem β) : PEv α β) = 0 := by
  intro polls
  induction polls with
  | nil => intro tr h; cases h
  | cons p rest ih =>
    intro tr h
    cases p with
    | none =>
      cases hrec : intake_loop (α := α) (β := β) nconcurrent rest with
      | none => rw [intake_loop, hrec] at h; cases h
      | some tr' =>
        rw [intake_loop, hrec] at h
        simp only [Option.map_some', Option.some.injEq] at h
        obtain ⟨pre, hpre, h1, h2, h3⟩ := ih tr' hrec
        refine ⟨PEv.sleep :: pre, ?_, ?_, ?_, ?_⟩
        · rw [← h, hpre]; rfl
        · simp [List.count_cons, h1]
        · simp [List.count_cons, h2]
        · simp [List.count_cons, h3]
    | some x =>
      cases x with
      | item a =>
        cases hrec : intake_loop (α := α) (β := β) nconcurrent rest with
        | none => rw [intake_loop, hrec] at h; cases h
        | some tr' =>
          rw [intake_loop, hrec] at h
          simp only [Option.map_some', Option.some.injEq] at h
          obtain ⟨pre, hpre, h1, h2, h3⟩ := ih tr' hrec
          refine ⟨PEv.aqInPut (QItem.item a) :: PEv.srcTaskDone :: pre, ?_, ?_, ?_, ?_⟩
          · rw [← h, hpre]; rfl
          · simp [List.count_cons, h1]
          · simp [List.count_cons, h2]
          · simp [List.count_cons, h3]
      | eos =>
        rw [intake_loop] at h
        simp only [Option.some.injEq] at h
        refine ⟨[PEv.srcTaskDone], ?_, by simp, by simp, by simp⟩
        rw [← h]; rfl

theorem push_to_dst_shape {γ : Type} (x : γ) (qs : Nat → List γ) (maxsize : Nat) :
    ∀ (fuel t : Nat) (steps : List (PushStep γ)) (tend : Nat),
      push_to_dst x qs maxsize fuel t = some (steps, tend) →
      ∃ k, steps = List.replicate k PushStep.sleepStep ++ [PushStep.putStep x] := by
  intro fuel
  induction fuel with
  | zero => intro t s tend h; cases h
  | succ fuel ih =>
    intro t s tend h
    by_cases hfull : (qs t).length < maxsize
    · rw [push_to_dst] at h
      simp only [safe_put, hfull, if_pos, Option.some.injEq, Prod.mk.injEq] at h
      exact ⟨0, by rw [← h.1]; rfl⟩
    · rw [push_to_dst] at h
      simp only [safe_put, hfull, if_neg, ite_false] at h
      cases hrec : push_to_dst x qs maxsize fuel (t + 1) with
      | none => rw [hrec] at h; simp at h
      | some p =>
        rw [hrec] at h
        have hs : some (PushStep.sleepStep :: p.1, p.2) = some (s, tend) := by
          simpa using h
        simp only [Option.some.injEq, Prod.mk.injEq] at hs
        obtain ⟨k, hk⟩ := ih (t + 1) p.1 p.2 (by rw [hrec])
        refine ⟨k + 1, ?_⟩
        rw [← hs.1, hk, List.replicate_succ]
        rfl

theorem count_replicate_of_ne {γ : Type} [DecidableEq γ] {a b : γ} (h : b ≠ a) (n : Nat) :
    (List.replicate n b).count a = 0 := by
  induction n with
  | zero => rfl
  | succ n ih => simp [List.replicate_succ, List.count_cons, ih, h]

theorem q2q_nmap_pump_shape {α β : Type} (nconcurrent : Nat) (pt : Bool)
    (polls : List (Option (QItem α))) (qs : Nat → List (QItem β)) (maxsize fuel : Nat)
    (ptr : List (PEv α β))
    (h : q2q_nmap_pump nconcurrent pt polls qs maxsize fuel = some ptr) :
    ∃ tr post, intake_loop nconcurrent polls = some tr
      ∧ ptr = tr ++ [PEv.aqOutPut QItem.eos, PEv.aqOutJoin] ++ post
      ∧ (pt = false → post = [])
      ∧ (pt = true → ∃ k, post = List.replicate k PEv.qOutSleep ++ [PEv.qOutPut QItem.eos]) := by
  unfold q2q_nmap_pump at h
  cases hint : intake_loop (α := α) (β := β) nconcurrent polls with
  | none => rw [hint] at h; cases h
  | some tr =>
    rw [hint] at h
    cases pt with
    | false =>
      simp only [Bool.false_eq_true, ite_false, Option.some.injEq] at h
      refine ⟨tr, [], rfl, ?_, fun _ => rfl, fun hc => Bool.noConfusion hc⟩
      rw [← h]; simp
    | true =>
      simp only [ite_true] at h
      cases hpush : push_to_dst (QItem.eos : QItem β) qs maxsize fuel 0 with
      | none => rw [hpush] at h; cases h
      | some p =>
        obtain ⟨steps, tend⟩ := p
        rw [hpush] at h
        simp only [Option.some.injEq] at h
        obtain ⟨k, hk⟩ := push_to_dst_shape (QItem.eos : QItem β) qs maxsize fuel 0 steps tend hpush
        refine ⟨tr, steps.map (fun s => match s with
            | PushStep.putStep y => PEv.qOutPut y
            | PushStep.sleepStep => PEv.qOutSleep), rfl, ?_,
          fun hc => Bool.noConfusion hc, fun _ => ⟨k, ?_⟩⟩
        · rw [← h]
        · rw [hk]
          simp

/-- Values successfully pushed into the blocking result channel by the
output bridge, in order. -/
def qPutsOf {β : Type} (tr : List (OEv β)) : List (QItem β) :=
  tr.filterMap (fun e => match e with | OEv.qPut y => some y | _ => none)

theorem qPutsOf_append {β : Type} (l l' : List (OEv β)) :
    qPutsOf (l ++ l') = qPutsOf l ++ qPutsOf l' := by
  simp [qPutsOf]

theorem qPutsOf_replicate_qSleep {β : Type} (k : Nat) :
    qPutsOf (List.replicate k (OEv.qSleep : OEv β)) = [] := by
  induction k with
  | zero => rfl
  | succ k _ => simp [qPutsOf, List.replicate_succ]

theorem output_loop_flush {β : Type} (qs : Nat → List (QItem β)) (maxsize fuel : Nat) :
    ∀ (ys : List β) (rest : List (QItem β)) (t : Nat) (tr : List (OEv β)),
      output_loop qs maxsize fuel (ys.map QItem.item ++ QItem.eos :: rest) t = some tr →
      qPutsOf tr = ys.map QItem.item
      ∧ ∃ body, tr = body ++ [OEv.take QItem.eos, OEv.srcTaskDone] := by
  intro ys
  induction ys with
  | nil =>
    intro rest t tr h
    simp only [List.map_nil, List.nil_append, output_loop, Option.some.injEq] at h
    exact ⟨by rw [← h]; rfl, ⟨[], by rw [← h]; rfl⟩⟩
  | cons y ys ih =>
    intro rest t tr h
    rw [List.map_cons, List.cons_append, output_loop] at h
    cases hpush : push_to_dst (QItem.item y) qs maxsize fuel t with
    | none =>
      rw [hpush] at h
      exact absurd h (by simp)
    | some p =>
      obtain ⟨steps, t1⟩ := p
      rw [hpush] at h
      have h' : (output_loop qs maxsize fuel (ys.map QItem.item ++ QItem.eos :: rest) t1).map
          (fun tr => OEv.take (QItem.item y) :: (steps.map stepToOEv ++ OEv.srcTaskDone :: tr))
          = some tr := h
      clear h
      cases hrec : output_loop qs maxsize fuel (ys.map QItem.item ++ QItem.eos :: rest) t1 with
      | none => rw [hrec] at h'; cases h'
      | some tl =>
        rw [hrec] at h'
        have h : OEv.take (QItem.item y) :: (steps.map stepToOEv ++ OEv.srcTaskDone :: tl) = tr := by
          simpa using h'
        obtain ⟨hfm, body, hbody⟩ := ih rest t1 tl hrec
        obtain ⟨k, hk⟩ := push_to_dst_shape (QItem.item y) qs maxsize fuel t steps t1 hpush
        constructor
        · rw [← h, hk]
          simp only [List.map_append, List.map_cons, List.map_replicate]
          show qPutsOf (OEv.take (QItem.item y) ::
            ((List.replicate k (OEv.qSleep : OEv β) ++ [stepToOEv (PushStep.putStep (QItem.item y))])
              ++ OEv.srcTaskDone :: tl)) = QItem.item y :: ys.map QItem.item
          simp only [qPutsOf, List.filterMap_cons, List.filterMap_append]
          have h1 := qPutsOf_replicate_qSleep (β := β) k
          simp only [qPutsOf] at h1
          simp only [qPutsOf] at hfm
          simp [stepToOEv, h1, hfm]
        · refine ⟨OEv.take (QItem.item y) :: (steps.map stepToOEv ++ OEv.srcTaskDone :: body), ?_⟩
          rw [← h, hbody]
          simp

/-- C2: after the intake bridge observes the terminator on the blocking
feed channel it injects exactly `nconcurrent` terminators into the shared
async input channel — none earlier — and then waits on the drain barrier
(`aq_in.join()`) as its very last action; the pump body runs the intake
bridge to completion (barrier included) strictly before it puts the
shutdown terminator on the async output channel. -/
theorem C2_terminator_multiplication_and_drain_barrier {α β : Type}
    [DecidableEq α] [DecidableEq β] (nconcurrent : Nat)
    (polls : List (Option (QItem α))) :
    (∀ tr : List (PEv α β), intake_loop nconcurrent polls = some tr →
      ∃ pre, tr = pre ++ (List.replicate nconcurrent (PEv.aqInPut QItem.eos) ++ [PEv.aqInJoin])
        ∧ pre.count (PEv.aqInPut (QItem.eos : QItem α) : PEv α β) = 0
        ∧ pre.count (PEv.aqInJoin : PEv α β) = 0
        ∧ tr.count (PEv.aqInPut (QItem.eos : QItem α) : PEv α β) = nconcurrent) ∧
    (∀ (pt : Bool) (qs : Nat → List (QItem β)) (maxsize fuel : Nat) (ptr : List (PEv α β)),
      q2q_nmap_pump nconcurrent pt polls qs maxsize fuel = some ptr →
      ∃ tr post, intake_loop nconcurrent polls = some tr
        ∧ ptr = tr ++ [PEv.aqOutPut QItem.eos, PEv.aqOutJoin] ++ post) := by
  constructor
  · intro tr h
    obtain ⟨pre, hpre, h1, h2, h3⟩ := intake_loop_shape nconcurrent polls tr h
    refine ⟨pre, hpre, h1, h2, ?_⟩
    rw [hpre, List.count_append, List.count_append, h1]
    have hrep : (List.replicate nconcurrent
        (PEv.aqInPut (QItem.eos : QItem α) : PEv α β)).count
          (PEv.aqInPut (QItem.eos : QItem α) : PEv α β) = nconcurrent :=
      List.count_replicate_self _ _
    rw [hrep]
    simp
  · intro pt qs maxsize fuel ptr h
    obtain ⟨tr, post, hint, hdec, _, _⟩ :=
      q2q_nmap_pump_shape nconcurrent pt polls qs maxsize fuel ptr h
    exact ⟨tr, post, hint, hdec⟩

theorem C2_terminator_multiplication_witness :
    (∃ pre, ([PEv.aqInPut (QItem.item 3), PEv.srcTaskDone, PEv.srcTaskDone,
          PEv.aqInPut QItem.eos, PEv.aqInPut QItem.eos, PEv.aqInJoin] : List (PEv Nat Nat))
        = pre ++ (List.replicate 2 (PEv.aqInPut QItem.eos) ++ [PEv.aqInJoin])
        ∧ pre.count (PEv.aqInPut (QItem.eos : QItem Nat) : PEv Nat Nat) = 0
        ∧ pre.count (PEv.aqInJoin : PEv Nat Nat) = 0
        ∧ ([PEv.aqInPut (QItem.item 3), PEv.srcTaskDone, PEv.srcTaskDone,
            PEv.aqInPut QItem.eos, PEv.aqInPut QItem.eos, PEv.aqInJoin] : List (PEv Nat Nat)).count
              (PEv.aqInPut (QItem.eos : QItem Nat) : PEv Nat Nat) = 2)
    ∧ (∃ tr post, intake_loop 2 [some (QItem.item 3), some QItem.eos] = some tr
        ∧ ([PEv.aqInPut (QItem.item 3), PEv.srcTaskDone, PEv.srcTaskDone,
            PEv.aqInPut QItem.eos, PEv.aqInPut QItem.eos, PEv.aqInJoin,
            PEv.aqOutPut QItem.eos, PEv.aqOutJoin, PEv.qOutPut QItem.eos] : List (PEv Nat Nat))
          = tr ++ [PEv.aqOutPut QItem.eos, PEv.aqOutJoin] ++ post) := by
  refine ⟨(C2_terminator_multiplication_and_drain_barrier (α := Nat) (β := Nat) 2
      [some (QItem.item 3), some QItem.eos]).1 _ rfl,
    (C2_terminator_multiplication_and_drain_barrier (α := Nat) (β := Nat) 2
      [some (QItem.item 3), some QItem.eos]).2 true (fun _ => []) 1 1 _ rfl⟩

/-- C6: the output bridge, draining the FIFO `aq_out` whose content is
the mapper output followed by the pump's terminator, pushes every mapper
result to the blocking result channel before it stops at the terminator;
the pump puts exactly one terminator on `aq_out` and waits for its
acknowledgment immediately after the intake bridge completes; and it
then pushes exactly one terminator into the blocking result channel —
via the non-blocking put with sleep backoff — if and only if
`eos_passthrough` was requested. -/
theorem C6_output_shutdown_after_flush {α β : Type} [DecidableEq α] [DecidableEq β] :
    (∀ (qs : Nat → List (QItem β)) (maxsize fuel : Nat) (ys : List β)
        (rest : List (QItem β)) (t : Nat) (tr : List (OEv β)),
      output_loop qs maxsize fuel (ys.map QItem.item ++ QItem.eos :: rest) t = some tr →
      qPutsOf tr = ys.map QItem.item
        ∧ ∃ body, tr = body ++ [OEv.take QItem.eos, OEv.srcTaskDone]) ∧
    (∀ (nconcurrent : Nat) (pt : Bool) (polls : List (Option (QItem α)))
        (qs : Nat → List (QItem β)) (maxsize fuel : Nat) (ptr : List (PEv α β)),
      q2q_nmap_pump nconcurrent pt polls qs maxsize fuel = some ptr →
      ptr.count (PEv.aqOutPut (QItem.eos : QItem β) : PEv α β) = 1
        ∧ ∃ tr post, intake_loop nconcurrent polls = some tr
            ∧ ptr = tr ++ [PEv.aqOutPut QItem.eos, PEv.aqOutJoin] ++ post
            ∧ (pt = false → post = [])
            ∧ (pt = true → ∃ k, post = List.replicate k PEv.qOutSleep ++ [PEv.qOutPut QItem.eos])) := by
  constructor
  · intro qs maxsize fuel ys rest t tr h
    exact output_loop_flush qs maxsize fuel ys rest t tr h
  · intro nconc pt polls qs maxsize fuel ptr h
    obtain ⟨tr, post, hint, hdec, hfalse, htrue⟩ :=
      q2q_nmap_pump_shape nconc pt polls qs maxsize fuel ptr h
    refine ⟨?_, tr, post, hint, hdec, hfalse, htrue⟩
    obtain ⟨pre, hpre, hc1, hc2, hc3⟩ := intake_loop_shape nconc polls tr hint
    have htrcount : tr.count (PEv.aqOutPut (QItem.eos : QItem β) : PEv α β) = 0 := by
      rw [hpre, List.count_append, List.count_append, hc3,
        count_replicate_of_ne (by simp)]
      simp
    have hpostcount : post.count (PEv.aqOutPut (QItem.eos : QItem β) : PEv α β) = 0 := by
      cases pt with
      | false => rw [hfalse rfl]; rfl
      | true =>
        obtain ⟨k, hk⟩ := htrue rfl
        rw [hk, List.count_append, count_replicate_of_ne (by simp)]
        simp
    rw [hdec, List.count_append, List.count_append, htrcount, hpostcount]
    simp [List.count_cons]

theorem C6_output_shutdown_witness :
    (qPutsOf ([OEv.take (QItem.item 4), OEv.qPut (QItem.item 4), OEv.srcTaskDone,
        OEv.take QItem.eos, OEv.srcTaskDone] : List (OEv Nat)) = [4].map QItem.item
      ∧ ∃ body, ([OEv.take (QItem.item 4), OEv.qPut (QItem.item 4), OEv.srcTaskDone,
          OEv.take QItem.eos, OEv.srcTaskDone] : List (OEv Nat))
        = body ++ [OEv.take QItem.eos, OEv.srcTaskDone])
    ∧ (([PEv.srcTaskDone, PEv.aqInPut QItem.eos, PEv.aqInJoin,
          PEv.aqOutPut QItem.eos, PEv.aqOutJoin] : List (PEv Nat Nat)).count
            (PEv.aqOutPut (QItem.eos : QItem Nat) : PEv Nat Nat) = 1
        ∧ ∃ tr post, intake_loop 1 [some (QItem.eos : QItem Nat)] = some tr
            ∧ ([PEv.srcTaskDone, PEv.aqInPut QItem.eos, PEv.aqInJoin,
                PEv.aqOutPut QItem.eos, PEv.aqOutJoin] : List (PEv Nat Nat))
              = tr ++ [PEv.aqOutPut QItem.eos, PEv.aqOutJoin] ++ post
            ∧ (false = false → post = [])
            ∧ (false = true → ∃ k, post = List.replicate k PEv.qOutSleep ++ [PEv.qOutPut QItem.eos])) := by
  refine ⟨(C6_output_shutdown_after_flush (α := Nat) (β := Nat)).1
      (fun _ => []) 1 1 [4] [] 0 _ rfl,
    (C6_output_shutdown_after_flush (α := Nat) (β := Nat)).2
      1 false [some QItem.eos] (fun _ => []) 1 1 _ rfl⟩

/-- Data read by the head of `AsyncWorkerPool.map` before feeding:
one background job submitted per retained private loop, the effective
per-thread concurrency, and the two shared channels (the pool's own
`_q1`/`_q2`). -/
structure MapSetup where
  workers : List Nat
  nconcurrent : Nat
  feedq_maxsize : Nat
  outq_maxsize : Nat
  deriving DecidableEq, Repr

/-- Shallow embedding of the head of `AsyncWorkerPool.map`: `workers =
[submit(...) for loop in self._loops]`, `nconcurrent` defaults to the
pool's `_default_tasks_per_thread`, `feedq = self._q1`, `outq = self._q2`. -/
def AsyncWorkerPool.mapSetup (p : AsyncWorkerPool) (nconcurrent : Option Nat) : MapSetup :=
  { workers := p._loops
    nconcurrent := match nconcurrent with
      | none => p._default_tasks_per_thread
      | some k => k
    feedq_maxsize := p._q1
    outq_maxsize := p._q2 }

/-- C9: construction with `N` threads and `M` tasks per thread and no
buffer capacity gives both shared blocking channels capacity
`min 100 (N*M*2)`; exactly `N` private event loops are created; and every
`map` invocation reuses the pool's own loops (one worker per loop) and
its two channels — `mapSetup` reads only pool fields, identically on
every call. -/
theorem C9_init_defaults_and_reuse (nthreads tasks_per_thread : Nat) :
    (AsyncWorkerPool.init nthreads tasks_per_thread none)._q1
        = min 100 (nthreads * tasks_per_thread * 2)
    ∧ (AsyncWorkerPool.init nthreads tasks_per_thread none)._q2
        = min 100 (nthreads * tasks_per_thread * 2)
    ∧ (AsyncWorkerPool.init nthreads tasks_per_thread none)._loops.length = nthreads
    ∧ (∀ c, (AsyncWorkerPool.init nthreads tasks_per_thread (some c))._q1 = c)
    ∧ (∀ (p : AsyncWorkerPool) (nc : Option Nat),
        (p.mapSetup nc).workers = p._loops
        ∧ (p.mapSetup nc).feedq_maxsize = p._q1
        ∧ (p.mapSetup nc).outq_maxsize = p._q2
        ∧ (p.mapSetup none).nconcurrent = p._default_tasks_per_thread) := by
  refine ⟨rfl, rfl, by simp [AsyncWorkerPool.init], fun c => rfl, fun p nc => ⟨rfl, rfl, rfl, rfl⟩⟩

/-!
Final drain loop of `AsyncWorkerPool.map` and background-job model.
-/

/-- A background worker job as the pool sees it: the time its future
completes and its outcome (`error e` models the job raising).  Python
`Future.done()` is true for failed futures as well. -/
structure Job where
  doneAt : Nat
  outcome : Except String Unit
  deriving Repr

def Job.isDone (w : Job) (t : Nat) : Bool := decide (w.doneAt ≤ t)

/-- `Future.result()`: the stored value, or the stored exception
re-raised at the caller (modelled by returning the stored outcome). -/
def Job.result (w : Job) : Except String Unit := w.outcome

/-- `_run_worker_thread`: `loop.run_until_complete(q2q_task)` — an
exception escaping the pump propagates out of the submitted callable
(and is then captured into the executor's future). -/
def _run_worker_thread (pumpOutcome : Except String Unit) : Unit → Except String Unit :=
  fun _ => pumpOutcome

/-- `prune_workers` from the source: `[w for w in ww if not w.done()]`. -/
def prune_workers (ww : List Job) (t : Nat) : List Job :=
  ww.filter (fun w => ! w.isDone t)

inductive DrainEv (β : Type) where
  | yieldEv (y : β)
  | sleepEv
  deriving DecidableEq, Repr

/-- Shallow embedding of the final drain loop of `AsyncWorkerPool.map`:

`while not (len(workers) == 0 and outq.empty()): (drain outq; prune; sleep
if workers remain and nothing was drained)`.

`arr t` is the batch of results worker threads append to the result
channel during iteration `t` (the generator is that channel's only
consumer, so within one iteration the inner `while not outq.empty()`
drains exactly the current content).  One iteration advances the clock by
one; `fuel` bounds the number of iterations.  The result carries the
event trace and the final workers / channel content / clock. -/
def drainLoop {β : Type} (arr : Nat → List β) :
    Nat → List Job → List β → Nat → Option (List (DrainEv β) × List Job × List β × Nat)
  | 0, _, _, _ => none
  | fuel + 1, ww, q, t =>
      if ww.isEmpty && (q ++ arr t).isEmpty then
        some ([], ww, q ++ arr t, t)
      else
        (drainLoop arr fuel (prune_workers ww t) [] (t + 1)).map
          (fun r => ((q ++ arr t).map DrainEv.yieldEv
            ++ (if !(prune_workers ww t).isEmpty && (q ++ arr t).isEmpty
                then [DrainEv.sleepEv] else [])
            ++ r.1, r.2))

/-- Results yielded to the caller along a drain-loop trace, in order. -/
def drainYields {β : Type} (tr : List (DrainEv β)) : List β :=
  tr.filterMap (fun e => match e with | DrainEv.yieldEv y => some y | _ => none)

@[simp] theorem drainYields_nil {β : Type} : drainYields ([] : List (DrainEv β)) = [] := rfl

@[simp] theorem drainYields_cons_yield {β : Type} (y : β) (l : List (DrainEv β)) :
    drainYields (DrainEv.yieldEv y :: l) = y :: drainYields l := rfl

@[simp] theorem drainYields_cons_sleep {β : Type} (l : List (DrainEv β)) :
    drainYields (DrainEv.sleepEv :: l) = drainYields l := rfl

@[simp] theorem drainYields_append {β : Type} (l l2 : List (DrainEv β)) :
    drainYields (l ++ l2) = drainYields l ++ drainYields l2 := by
  simp [drainYields]

@[simp] theorem drainYields_map_yield {β : Type} (l : List β) :
    drainYields (l.map DrainEv.yieldEv) = l := by
  induction l with
  | nil => rfl
  | cons y l ih => simp [ih]

theorem drainLoop_exit {β : Type} (arr : Nat → List β) :
    ∀ (fuel : Nat) (ww : List Job) (q : List β) (t : Nat)
      (tr : List (DrainEv β)) (wwf : List Job) (qf : List β) (tf : Nat),
      drainLoop arr fuel ww q t = some (tr, wwf, qf, tf) →
      wwf = [] ∧ qf = [] := by
  intro fuel
  induction fuel with
  | zero => intro ww q t tr wwf qf tf h; cases h
  | succ fuel ih =>
    intro ww q t tr wwf qf tf h
    rw [drainLoop] at h
    by_cases hexit : (ww.isEmpty && (q ++ arr t).isEmpty) = true
    · rw [if_pos hexit] at h
      simp only [Option.some.injEq, Prod.mk.injEq] at h
      obtain ⟨-, hww, hq, -⟩ := h
      simp only [Bool.and_eq_true, List.isEmpty_iff] at hexit
      exact ⟨by rw [← hww]; exact hexit.1, by rw [← hq]; exact hexit.2⟩
    · rw [if_neg hexit] at h
      cases hrec : drainLoop arr fuel (prune_workers ww t) [] (t + 1) with
      | none => rw [hrec] at h; cases h
      | some r =>
        obtain ⟨tr1, wwf1, qf1, tf1⟩ := r
        rw [hrec] at h
        simp only [Option.map_some', Option.some.injEq, Prod.mk.injEq] at h
        obtain ⟨-, hw, hq, -⟩ := h
        have hr := ih _ _ _ tr1 wwf1 qf1 tf1 hrec
        exact ⟨by rw [← hw]; exact hr.1, by rw [← hq]; exact hr.2⟩

theorem drainLoop_yields_all {β : Type} (arr : Nat → List β) :
    ∀ (fuel : Nat) (ww : List Job) (q : List β) (t : Nat)
      (tr : List (DrainEv β)) (wwf : List Job) (qf : List β) (tf : Nat),
      drainLoop arr fuel ww q t = some (tr, wwf, qf, tf) →
      t ≤ tf ∧ drainYields tr ++ qf = q ++ (List.range' t (tf - t + 1)).flatMap arr := by
  intro fuel
  induction fuel with
  | zero => intro ww q t tr wwf qf tf h; cases h
  | succ fuel ih =>
    intro ww q t tr wwf qf tf h
    rw [drainLoop] at h
    by_cases hexit : (ww.isEmpty && (q ++ arr t).isEmpty) = true
    · rw [if_pos hexit] at h
      simp only [Option.some.injEq, Prod.mk.injEq] at h
      obtain ⟨htr, -, hq, ht⟩ := h
      refine ⟨by omega, ?_⟩
      rw [← htr, ← hq, ← ht]
      simp [drainYields, List.range'_succ]
    · rw [if_neg hexit] at h
      cases hrec : drainLoop arr fuel (prune_workers ww t) [] (t + 1) with
      | none => rw [hrec] at h; cases h
      | some r =>
        obtain ⟨tr1, wwf1, qf1, tf1⟩ := r
        rw [hrec] at h
        simp only [Option.map_some', Option.some.injEq, Prod.mk.injEq] at h
        obtain ⟨htr, -, hq, ht⟩ := h
        obtain ⟨htle, hyield⟩ := ih _ _ _ tr1 wwf1 qf1 tf1 hrec
        refine ⟨by omega, ?_⟩
        rw [← htr, ← hq, ← ht]
        have hstep : drainYields ((List.map DrainEv.yieldEv (q ++ arr t)
              ++ (if (!(prune_workers ww t).isEmpty && (q ++ arr t).isEmpty) = true
                  then [DrainEv.sleepEv] else [])) ++ tr1)
            = (q ++ arr t) ++ drainYields tr1 := by
          by_cases hc : (!(prune_workers ww t).isEmpty && (q ++ arr t).isEmpty) = true
          · rw [if_pos hc]; simp
          · rw [if_neg hc]; simp
        rw [hstep, List.append_assoc, hyield]
        have hrange : List.range' t (tf1 - t + 1) = t :: List.range' (t + 1) (tf1 - (t + 1) + 1) := by
          have h1 : tf1 - t + 1 = (tf1 - (t + 1) + 1) + 1 := by omega
          rw [h1, List.range'_succ]
        rw [hrange]
        simp

theorem drainLoop_step_shape {β : Type} (arr : Nat → List β) (fuel : Nat)
    (ww : List Job) (q : List β) (t : Nat) (tr : List (DrainEv β))
    (wwf : List Job) (qf : List β) (tf : Nat)
    (h : drainLoop arr (fuel + 1) ww q t = some (tr, wwf, qf, tf))
    (hne : ¬ (ww.isEmpty && (q ++ arr t).isEmpty) = true) :
    ∃ tr1, drainLoop arr fuel (prune_workers ww t) [] (t + 1) = some (tr1, wwf, qf, tf)
      ∧ tr = (List.map DrainEv.yieldEv (q ++ arr t)
          ++ (if (!(prune_workers ww t).isEmpty && (q ++ arr t).isEmpty) = true
              then [DrainEv.sleepEv] else [])) ++ tr1 := by
  rw [drainLoop, if_neg hne] at h
  cases hrec : drainLoop arr fuel (prune_workers ww t) [] (t + 1) with
  | none => rw [hrec] at h; cases h
  | some r =>
    obtain ⟨tr1, wwf1, qf1, tf1⟩ := r
    rw [hrec] at h
    simp only [Option.map_some', Option.some.injEq, Prod.mk.injEq] at h
    obtain ⟨htr, hw, hq, ht⟩ := h
    subst hw
    subst hq
    subst ht
    exact ⟨tr1, rfl, htr.symm⟩

/-- C5: the final drain loop of `AsyncWorkerPool.map` returns only in a
state where the worker list is empty AND the result channel is empty —
never while either condition fails; along the way it yields everything
that was on or arrived at the result channel; and each non-final
iteration drains all currently available results, prunes finished jobs,
and sleeps exactly when pruned workers remain and nothing was drained. -/
theorem C5_drain_dual_condition_termination {β : Type} (arr : Nat → List β) :
    (∀ (fuel : Nat) (ww : List Job) (q : List β) (t : Nat) tr wwf qf tf,
      drainLoop arr fuel ww q t = some (tr, wwf, qf, tf) → wwf = [] ∧ qf = []) ∧
    (∀ (fuel : Nat) (ww : List Job) (q : List β) (t : Nat) tr wwf qf tf,
      drainLoop arr fuel ww q t = some (tr, wwf, qf, tf) →
      t ≤ tf ∧ drainYields tr ++ qf = q ++ (List.range' t (tf - t + 1)).flatMap arr) ∧
    (∀ (fuel : Nat) (ww : List Job) (q : List β) (t : Nat) tr wwf qf tf,
      drainLoop arr (fuel + 1) ww q t = some (tr, wwf, qf, tf) →
      ¬ (ww.isEmpty && (q ++ arr t).isEmpty) = true →
      ∃ tr1, drainLoop arr fuel (prune_workers ww t) [] (t + 1) = some (tr1, wwf, qf, tf)
        ∧ tr = (List.map DrainEv.yieldEv (q ++ arr t)
            ++ (if (!(prune_workers ww t).isEmpty && (q ++ arr t).isEmpty) = true
                then [DrainEv.sleepEv] else [])) ++ tr1) :=
  ⟨drainLoop_exit arr, drainLoop_yields_all arr,
    fun fuel ww q t tr wwf qf tf h hne =>
      drainLoop_step_shape arr fuel ww q t tr wwf qf tf h hne⟩

theorem C5_drain_dual_condition_witness :
    (([] : List Job) = [] ∧ ([] : List Nat) = [])
    ∧ ((0 : Nat) ≤ 2
        ∧ drainYields [DrainEv.yieldEv (42 : Nat)] ++ []
          = [42] ++ (List.range' 0 (2 - 0 + 1)).flatMap (fun _ => ([] : List Nat)))
    ∧ (∃ tr1, drainLoop (fun _ => ([] : List Nat)) 2
          (prune_workers [{ doneAt := 1, outcome := Except.ok () }] 0) [] 1
          = some (tr1, [], [], 2)
        ∧ [DrainEv.yieldEv (42 : Nat)]
          = (List.map DrainEv.yieldEv (([42] : List Nat) ++ [])
              ++ (if (!(prune_workers [{ doneAt := 1, outcome := Except.ok () }] 0).isEmpty
                    && ((([42] : List Nat) ++ []).isEmpty)) = true
                  then [DrainEv.sleepEv] else [])) ++ tr1) := by
  have h := C5_drain_dual_condition_termination (β := Nat) (fun _ => [])
  exact ⟨h.1 3 [{ doneAt := 1, outcome := Except.ok () }] [42] 0 _ _ _ _ rfl,
    h.2.1 3 [{ doneAt := 1, outcome := Except.ok () }] [42] 0 _ _ _ _ rfl,
    h.2.2 2 [{ doneAt := 1, outcome := Except.ok () }] [42] 0 _ _ _ _ rfl (by decide)⟩

theorem drainLoop_empty_state {β : Type} (s m : Nat) :
    drainLoop (β := β) (fun _ => []) (m + 1) [] [] s = some ([], [], [], s) := by
  rw [drainLoop]
  rfl

theorem drainLoop_all_done_terminates {β : Type} :
    ∀ (k : Nat) (ww : List Job) (q : List β) (t : Nat),
      (∀ w ∈ ww, w.doneAt ≤ t + k) →
      ∀ fuel, k + 2 ≤ fuel →
      ∃ r, drainLoop (fun _ => []) fuel ww q t = some r := by
  intro k
  induction k with
  | zero =>
    intro ww q t hdone fuel hfuel
    cases fuel with
    | zero => omega
    | succ m =>
      rw [drainLoop]
      by_cases hexit : (ww.isEmpty && ((q ++ []).isEmpty)) = true
      · rw [if_pos hexit]
        exact ⟨_, rfl⟩
      · rw [if_neg hexit]
        have hprune : prune_workers ww t = [] := by
          apply List.filter_eq_nil_iff.mpr
          intro w hw
          have := hdone w hw
          simp [Job.isDone]
          omega
        rw [hprune]
        cases m with
        | zero => omega
        | succ m2 =>
          rw [drainLoop_empty_state]
          exact ⟨_, rfl⟩
  | succ k ih =>
      intro ww q t hdone fuel hfuel
      cases fuel with
      | zero => omega
      | succ m =>
        rw [drainLoop]
        by_cases hexit : (ww.isEmpty && ((q ++ []).isEmpty)) = true
        · rw [if_pos hexit]
          exact ⟨_, rfl⟩
        · rw [if_neg hexit]
          have hstep : ∀ w ∈ prune_workers ww t, w.doneAt ≤ (t + 1) + k := by
            intro w hw
            have hmem : w ∈ ww := List.mem_of_mem_filter hw
            have := hdone w hmem
            omega
          obtain ⟨r, hr⟩ := ih (prune_workers ww t) [] (t + 1) hstep m (by omega)
          rw [hr]
          exact ⟨_, rfl⟩

/-- C8: a background job that raises outside the mapper's own try-guard
stores the exception in its future — `result()` surfaces it to whoever
inspects it; `done()` is nevertheless true once the job finishes, so
`prune_workers` removes the failed job, and the final drain loop still
terminates with such a job on its watch list: the pool does not hang. -/
theorem C8_failed_job_surfaced_no_hang (e : String) (tdone : Nat) :
    (Job.result { doneAt := tdone, outcome := _run_worker_thread (Except.error e) () }
        = Except.error e)
    ∧ (∀ t2, tdone ≤ t2 →
        prune_workers
          [{ doneAt := tdone, outcome := _run_worker_thread (Except.error e) () }] t2 = [])
    ∧ (∀ (β : Type) (q : List β) (fuel : Nat), tdone + 2 ≤ fuel →
        ∃ r, drainLoop (fun _ => []) fuel
          [{ doneAt := tdone, outcome := _run_worker_thread (Except.error e) () }] q 0
            = some r) := by
  refine ⟨rfl, ?_, ?_⟩
  · intro t2 h
    simp [prune_workers, Job.isDone, h]
  · intro β q fuel hfuel
    refine drainLoop_all_done_terminates tdone _ q 0 ?_ fuel hfuel
    intro w hw
    simp only [List.mem_singleton] at hw
    rw [hw]
    show tdone ≤ 0 + tdone
    omega

theorem C8_failed_job_witness :
    (Job.result { doneAt := 1, outcome := _run_worker_thread (Except.error "boom") () }
        = Except.error "boom")
    ∧ prune_workers
        [{ doneAt := 1, outcome := _run_worker_thread (Except.error "boom") () }] 3 = []
    ∧ ∃ r, drainLoop (fun _ => []) 3
        [{ doneAt := 1, outcome := _run_worker_thread (Except.error "boom") () }]
        ([5] : List Nat) 0 = some r := by
  have h := C8_failed_job_surfaced_no_hang "boom" 1
  exact ⟨h.1, h.2.1 3 (by decide), h.2.2 Nat [5] 3 (by decide)⟩

/-!
Feed loop of `AsyncWorkerPool.map`.

Oracles: `ff i` is the result of the `i`-th `feedq.full()` check of the
call and `op j` the result of the `j`-th result-channel poll (`none` =
empty; the generator is the result channel's only consumer, so the
`empty()` test plus `get_nowait()` is one atomic poll).  The feed queue
is only drained by workers while the generator holds off putting, so
between two of this loop's puts fullness can only go from full to
not-full — expressed where needed as a monotonicity hypothesis on `ff`.
-/

inductive FeedEv (β γ : Type) where
  | yieldEv (y : β)     -- `yield outq.get_nowait()`
  | sleepEv             -- `sleep(dt)`
  | feedPut (x : γ)     -- `feedq.put_nowait(x)`
  deriving DecidableEq, Repr

/-- `while feedq.full() and not outq.empty(): yield outq.get_nowait()` —
the inner opportunistic drain while waiting for feed space. -/
def feedInnerDrain {β : Type} (ff : Nat → Bool) (op : Nat → Option β) :
    Nat → Nat → Nat → Option (List β × Nat × Nat)
  | 0, _, _ => none
  | fuel + 1, tf, tq =>
      if ff tf then
        match op tq with
        | some y =>
            (feedInnerDrain ff op fuel (tf + 1) (tq + 1)).map
              (fun r => (y :: r.1, r.2))
        | none => some ([], tf + 1, tq + 1)
      else some ([], tf + 1, tq)

/-- `while feedq.full(): (inner drain); if feedq.full() and n == 0:
sleep(dt)` — wait until the feed channel has space, draining available
results, sleeping only when it stayed full and nothing was drained. -/
def feedWaitLoop {β γ : Type} (ff : Nat → Bool) (op : Nat → Option β) :
    Nat → Nat → Nat → Option (List (FeedEv β γ) × Nat × Nat)
  | 0, _, _ => none
  | fuel + 1, tf, tq =>
      if ff tf then
        match feedInnerDrain ff op (fuel + 1) (tf + 1) tq with
        | none => none
        | some (ys, tf1, tq1) =>
            if ff tf1 && decide (ys.length = 0) then
              (feedWaitLoop ff op fuel (tf1 + 1) tq1).map
                (fun r => (ys.map FeedEv.yieldEv ++ FeedEv.sleepEv :: r.1, r.2))
            else
              (feedWaitLoop ff op fuel (tf1 + 1) tq1).map
                (fun r => (ys.map FeedEv.yieldEv ++ r.1, r.2))
      else some ([], tf + 1, tq)

/-- `for _ in range(10): if outq.empty(): break; yield outq.get_nowait()`
— flush up to 10 already-available results after a successful feed. -/
def drainUpTo {β : Type} (op : Nat → Option β) : Nat → Nat → List β × Nat
  | 0, tq => ([], tq)
  | k + 1, tq =>
      match op tq with
      | none => ([], tq + 1)
      | some y => ((fun r => (y :: r.1, r.2)) (drainUpTo op k (tq + 1)))

/-- One iteration of the feed loop for item `x`: wait for feed space,
`feedq.put_nowait(x)`, then flush up to 10 available results. -/
def feedOne {β γ : Type} (ff : Nat → Bool) (op : Nat → Option β) (x : γ)
    (fuel tf tq : Nat) : Option (List (FeedEv β γ) × Nat × Nat) :=
  match feedWaitLoop (γ := γ) ff op fuel tf tq with
  | none => none
  | some (evs, tf1, tq1) =>
      some (evs ++ FeedEv.feedPut x :: ((drainUpTo op 10 tq1).1.map FeedEv.yieldEv),
        tf1, (drainUpTo op 10 tq1).2)

/-- The whole feed phase: `for x in its: ...` over the chained stream. -/
def feedAll {β γ : Type} (ff : Nat → Bool) (op : Nat → Option β) :
    List γ → Nat → Nat → Nat → Option (List (FeedEv β γ) × Nat × Nat)
  | [], _, tf, tq => some ([], tf, tq)
  | x :: xs, fuel, tf, tq =>
      match feedOne ff op x fuel tf tq with
      | none => none
      | some (evs, tf1, tq1) =>
          (feedAll ff op xs fuel tf1 tq1).map (fun r => (evs ++ r.1, r.2))

/-- The stream `AsyncWorkerPool.map` feeds: the caller's items then one
terminator per submitted worker
(`its = itertools.chain(its, [EOS_MARKER]*len(workers))`). -/
def AsyncWorkerPool.mapFeedItems {α : Type} (p : AsyncWorkerPool) (its : List α) :
    List (QItem α) :=
  its.map QItem.item ++ List.replicate p._loops.length QItem.eos

/-- Items put on the feed channel along a feed-phase trace, in order. -/
def feedPutsOf {β γ : Type} (tr : List (FeedEv β γ)) : List γ :=
  tr.filterMap (fun e => match e with | FeedEv.feedPut x => some x | _ => none)

@[simp] theorem feedPutsOf_nil {β γ : Type} : feedPutsOf ([] : List (FeedEv β γ)) = [] := rfl

@[simp] theorem feedPutsOf_cons_yield {β γ : Type} (y : β) (l : List (FeedEv β γ)) :
    feedPutsOf (FeedEv.yieldEv y :: l) = feedPutsOf l := rfl

@[simp] theorem feedPutsOf_cons_sleep {β γ : Type} (l : List (FeedEv β γ)) :
    feedPutsOf (FeedEv.sleepEv :: l) = feedPutsOf l := rfl

@[simp] theorem feedPutsOf_cons_put {β γ : Type} (x : γ) (l : List (FeedEv β γ)) :
    feedPutsOf (FeedEv.feedPut x :: l) = x :: feedPutsOf l := rfl

@[simp] theorem feedPutsOf_append {β γ : Type} (l l2 : List (FeedEv β γ)) :
    feedPutsOf (l ++ l2) = feedPutsOf l ++ feedPutsOf l2 := by
  simp [feedPutsOf]

@[simp] theorem feedPutsOf_map_yield {β γ : Type} (l : List β) :
    feedPutsOf (l.map (FeedEv.yieldEv : β → FeedEv β γ)) = [] := by
  induction l with
  | nil => rfl
  | cons y l ih => simpa using ih

theorem feedWaitLoop_no_put {β γ : Type} (ff : Nat → Bool) (op : Nat → Option β) :
    ∀ (fuel tf tq : Nat) (tr : List (FeedEv β γ)) (tf2 tq2 : Nat),
      feedWaitLoop ff op fuel tf tq = some (tr, tf2, tq2) →
      feedPutsOf tr = [] := by
  intro fuel
  induction fuel with
  | zero => intro tf tq tr tf2 tq2 h; cases h
  | succ fuel ih =>
    intro tf tq tr tf2 tq2 h
    rw [feedWaitLoop] at h
    by_cases hff : ff tf = true
    · rw [if_pos hff] at h
      cases hin : feedInnerDrain ff op (fuel + 1) (tf + 1) tq with
      | none => rw [hin] at h; cases h
      | some r =>
        obtain ⟨ys, tf1, tq1⟩ := r
        rw [hin] at h
        have h2 : (if (ff tf1 && decide (ys.length = 0)) = true then
              Option.map (fun r => (ys.map FeedEv.yieldEv ++ FeedEv.sleepEv :: r.1, r.2))
                (feedWaitLoop (γ := γ) ff op fuel (tf1 + 1) tq1)
            else Option.map (fun r => (ys.map FeedEv.yieldEv ++ r.1, r.2))
                (feedWaitLoop (γ := γ) ff op fuel (tf1 + 1) tq1)) = some (tr, tf2, tq2) := h
        clear h
        by_cases hc : (ff tf1 && decide (ys.length = 0)) = true
        · rw [if_pos hc] at h2
          cases hrec : feedWaitLoop (γ := γ) ff op fuel (tf1 + 1) tq1 with
          | none => rw [hrec] at h2; cases h2
          | some r2 =>
            rw [hrec] at h2
            simp only [Option.map_some', Option.some.injEq, Prod.mk.injEq] at h2
            obtain ⟨htr, -⟩ := h2
            rw [← htr]
            have := ih _ _ r2.1 r2.2.1 r2.2.2 (by rw [hrec])
            simp [this]
        · rw [if_neg hc] at h2
          cases hrec : feedWaitLoop (γ := γ) ff op fuel (tf1 + 1) tq1 with
          | none => rw [hrec] at h2; cases h2
          | some r2 =>
            rw [hrec] at h2
            simp only [Option.map_some', Option.some.injEq, Prod.mk.injEq] at h2
            obtain ⟨htr, -⟩ := h2
            rw [← htr]
            have := ih _ _ r2.1 r2.2.1 r2.2.2 (by rw [hrec])
            simp [this]
    · rw [if_neg hff] at h
      simp only [Option.some.injEq, Prod.mk.injEq] at h
      obtain ⟨htr, -⟩ := h
      rw [← htr]
      rfl

theorem feedOne_puts {β γ : Type} (ff : Nat → Bool) (op : Nat → Option β) (x : γ)
    (fuel tf tq : Nat) (tr : List (FeedEv β γ)) (tf2 tq2 : Nat)
    (h : feedOne ff op x fuel tf tq = some (tr, tf2, tq2)) :
    feedPutsOf tr = [x] := by
  unfold feedOne at h
  cases hw : feedWaitLoop (γ := γ) ff op fuel tf tq with
  | none => rw [hw] at h; cases h
  | some r =>
    obtain ⟨evs, tf1, tq1⟩ := r
    rw [hw] at h
    simp only [Option.some.injEq, Prod.mk.injEq] at h
    obtain ⟨htr, -⟩ := h
    rw [← htr]
    have hnp := feedWaitLoop_no_put ff op fuel tf tq evs tf1 tq1 hw
    simp [hnp]

theorem feedAll_puts {β γ : Type} (ff : Nat → Bool) (op : Nat → Option β) :
    ∀ (xs : List γ) (fuel tf tq : Nat) (tr : List (FeedEv β γ)) (tf2 tq2 : Nat),
      feedAll ff op xs fuel tf tq = some (tr, tf2, tq2) →
      feedPutsOf tr = xs := by
  intro xs
  induction xs with
  | nil =>
    intro fuel tf tq tr tf2 tq2 h
    simp only [feedAll, Option.some.injEq, Prod.mk.injEq] at h
    obtain ⟨htr, -⟩ := h
    rw [← htr]
    rfl
  | cons x xs ih =>
    intro fuel tf tq tr tf2 tq2 h
    rw [feedAll] at h
    cases hone : feedOne ff op x fuel tf tq with
    | none => rw [hone] at h; cases h
    | some r =>
      obtain ⟨evs, tf1, tq1⟩ := r
      rw [hone] at h
      have h3 : Option.map (fun r => (evs ++ r.1, r.2)) (feedAll ff op xs fuel tf1 tq1)
          = some (tr, tf2, tq2) := h
      clear h
      cases hrec : feedAll ff op xs fuel tf1 tq1 with
      | none => rw [hrec] at h3; cases h3
      | some r2 =>
        rw [hrec] at h3
        simp only [Option.map_some', Option.some.injEq, Prod.mk.injEq] at h3
        obtain ⟨htr, -⟩ := h3
        rw [← htr]
        have h1 := feedOne_puts ff op x fuel tf tq evs tf1 tq1 hone
        have h2 := ih fuel tf1 tq1 r2.1 r2.2.1 r2.2.2 (by rw [hrec])
        simp [h1, h2]

theorem feedInnerDrain_exits_not_full {β : Type} (ff : Nat → Bool) (op : Nat → Option β)
    (hmono : ∀ t, ff t = false → ff (t + 1) = false)
    (hop : ∀ t, op t ≠ none) :
    ∀ (fuel tf tq : Nat) (ys : List β) (tf1 tq1 : Nat),
      feedInnerDrain ff op fuel tf tq = some (ys, tf1, tq1) →
      ff tf1 = false := by
  intro fuel
  induction fuel with
  | zero => intro tf tq ys tf1 tq1 h; cases h
  | succ fuel ih =>
    intro tf tq ys tf1 tq1 h
    rw [feedInnerDrain] at h
    by_cases hff : ff tf = true
    · rw [if_pos hff] at h
      cases hopq : op tq with
      | none => exact absurd hopq (hop tq)
      | some y =>
        rw [hopq] at h
        have h2 : (feedInnerDrain ff op fuel (tf + 1) (tq + 1)).map
            (fun r => (y :: r.1, r.2)) = some (ys, tf1, tq1) := h
        clear h
        cases hrec : feedInnerDrain ff op fuel (tf + 1) (tq + 1) with
        | none => rw [hrec] at h2; cases h2
        | some r =>
          obtain ⟨ysr, tfr, tqr⟩ := r
          rw [hrec] at h2
          simp only [Option.map_some', Option.some.injEq, Prod.mk.injEq] at h2
          obtain ⟨-, h1, -⟩ := h2
          rw [← h1]
          exact ih _ _ ysr tfr tqr hrec
    · rw [if_neg hff] at h
      simp only [Option.some.injEq, Prod.mk.injEq] at h
      obtain ⟨-, h1, -⟩ := h
      rw [← h1]
      exact hmono tf (by simpa using hff)

theorem feedWaitLoop_never_sleeps {β γ : Type} (ff : Nat → Bool) (op : Nat → Option β)
    (hmono : ∀ t, ff t = false → ff (t + 1) = false)
    (hop : ∀ t, op t ≠ none) :
    ∀ (fuel tf tq : Nat) (tr : List (FeedEv β γ)) (tf2 tq2 : Nat),
      feedWaitLoop ff op fuel tf tq = some (tr, tf2, tq2) →
      FeedEv.sleepEv ∉ tr := by
  intro fuel
  induction fuel with
  | zero => intro tf tq tr tf2 tq2 h; cases h
  | succ fuel ih =>
    intro tf tq tr tf2 tq2 h
    rw [feedWaitLoop] at h
    by_cases hff : ff tf = true
    · rw [if_pos hff] at h
      cases hin : feedInnerDrain ff op (fuel + 1) (tf + 1) tq with
      | none => rw [hin] at h; cases h
      | some r =>
        obtain ⟨ys, tf1, tq1⟩ := r
        rw [hin] at h
        have h2 : (if (ff tf1 && decide (ys.length = 0)) = true then
              Option.map (fun r => (ys.map FeedEv.yieldEv ++ FeedEv.sleepEv :: r.1, r.2))
                (feedWaitLoop (γ := γ) ff op fuel (tf1 + 1) tq1)
            else Option.map (fun r => (ys.map FeedEv.yieldEv ++ r.1, r.2))
                (feedWaitLoop (γ := γ) ff op fuel (tf1 + 1) tq1)) = some (tr, tf2, tq2) := h
        clear h
        have hnotfull : ff tf1 = false :=
          feedInnerDrain_exits_not_full ff op hmono hop (fuel + 1) (tf + 1) tq ys tf1 tq1 hin
        have hc : (ff tf1 && decide (ys.length = 0)) = false := by
          rw [hnotfull]
          rfl
        rw [if_neg (by rw [hc]; exact Bool.false_ne_true)] at h2
        cases hrec : feedWaitLoop (γ := γ) ff op fuel (tf1 + 1) tq1 with
        | none => rw [hrec] at h2; cases h2
        | some r2 =>
          rw [hrec] at h2
          simp only [Option.map_some', Option.some.injEq, Prod.mk.injEq] at h2
          obtain ⟨htr, -⟩ := h2
          rw [← htr]
          intro hmem
          rcases List.mem_append.mp hmem with hmem1 | hmem2
          · rcases List.mem_map.mp hmem1 with ⟨y, -, hy⟩
            cases hy
          · exact ih _ _ r2.1 r2.2.1 r2.2.2 (by rw [hrec]) hmem2
    · rw [if_neg hff] at h
      simp only [Option.some.injEq, Prod.mk.injEq] at h
      obtain ⟨htr, -⟩ := h
      rw [← htr]
      intro hmem
      cases hmem

theorem feedInnerDrain_none_empty {β : Type} (ff : Nat → Bool) (op : Nat → Option β)
    (hop : ∀ t, op t = none) :
    ∀ (fuel tf tq : Nat) (ys : List β) (tf1 tq1 : Nat),
      feedInnerDrain ff op fuel tf tq = some (ys, tf1, tq1) →
      ys = [] := by
  intro fuel tf tq ys tf1 tq1 h
  cases fuel with
  | zero => cases h
  | succ fuel =>
    rw [feedInnerDrain] at h
    by_cases hff : ff tf = true
    · rw [if_pos hff, hop tq] at h
      simp only [Option.some.injEq, Prod.mk.injEq] at h
      exact h.1.symm
    · rw [if_neg hff] at h
      simp only [Option.some.injEq, Prod.mk.injEq] at h
      exact h.1.symm

theorem feedWaitLoop_no_yield_when_empty {β γ : Type} (ff : Nat → Bool) (op : Nat → Option β)
    (hop : ∀ t, op t = none) :
    ∀ (fuel tf tq : Nat) (tr : List (FeedEv β γ)) (tf2 tq2 : Nat),
      feedWaitLoop ff op fuel tf tq = some (tr, tf2, tq2) →
      ∀ y : β, FeedEv.yieldEv y ∉ tr := by
  intro fuel
  induction fuel with
  | zero => intro tf tq tr tf2 tq2 h; cases h
  | succ fuel ih =>
    intro tf tq tr tf2 tq2 h
    rw [feedWaitLoop] at h
    by_cases hff : ff tf = true
    · rw [if_pos hff] at h
      cases hin : feedInnerDrain ff op (fuel + 1) (tf + 1) tq with
      | none => rw [hin] at h; cases h
      | some r =>
        obtain ⟨ys, tf1, tq1⟩ := r
        rw [hin] at h
        have h2 : (if (ff tf1 && decide (ys.length = 0)) = true then
              Option.map (fun r => (ys.map FeedEv.yieldEv ++ FeedEv.sleepEv :: r.1, r.2))
                (feedWaitLoop (γ := γ) ff op fuel (tf1 + 1) tq1)
            else Option.map (fun r => (ys.map FeedEv.yieldEv ++ r.1, r.2))
                (feedWaitLoop (γ := γ) ff op fuel (tf1 + 1) tq1)) = some (tr, tf2, tq2) := h
        clear h
        have hys : ys = [] :=
          feedInnerDrain_none_empty ff op hop (fuel + 1) (tf + 1) tq ys tf1 tq1 hin
        subst hys
        by_cases hc : (ff tf1 && decide (([] : List β).length = 0)) = true
        · rw [if_pos hc] at h2
          cases hrec : feedWaitLoop (γ := γ) ff op fuel (tf1 + 1) tq1 with
          | none => rw [hrec] at h2; cases h2
          | some r2 =>
            rw [hrec] at h2
            simp only [Option.map_some', Option.some.injEq, Prod.mk.injEq] at h2
            obtain ⟨htr, -⟩ := h2
            rw [← htr]
            intro y hmem
            simp only [List.map_nil, List.nil_append, List.mem_cons] at hmem
            rcases hmem with hmem | hmem
            · cases hmem
            · exact ih _ _ r2.1 r2.2.1 r2.2.2 (by rw [hrec]) y hmem
        · rw [if_neg hc] at h2
          cases hrec : feedWaitLoop (γ := γ) ff op fuel (tf1 + 1) tq1 with
          | none => rw [hrec] at h2; cases h2
          | some r2 =>
            rw [hrec] at h2
            simp only [Option.map_some', Option.some.injEq, Prod.mk.injEq] at h2
            obtain ⟨htr, -⟩ := h2
            rw [← htr]
            intro y hmem
            simp only [List.map_nil, List.nil_append] at hmem
            exact ih _ _ r2.1 r2.2.1 r2.2.2 (by rw [hrec]) y hmem
    · rw [if_neg hff] at h
      simp only [Option.some.injEq, Prod.mk.injEq] at h
      obtain ⟨htr, -⟩ := h
      rw [← htr]
      intro y hmem
      cases hmem

theorem drainUpTo_length_le {β : Type} (op : Nat → Option β) :
    ∀ (k tq : Nat), (drainUpTo op k tq).1.length ≤ k := by
  intro k
  induction k with
  | zero => intro tq; exact Nat.le_refl 0
  | succ k ih =>
    intro tq
    rw [drainUpTo]
    cases hop : op tq with
    | none => simp
    | some y =>
      simpa using ih (tq + 1)

theorem drainUpTo_stops_at_empty {β : Type} (op : Nat → Option β) (k tq : Nat)
    (h : op tq = none) :
    (drainUpTo op (k + 1) tq).1 = [] := by
  rw [drainUpTo, h]

/-- C7: the feed phase of `AsyncWorkerPool.map` puts on the shared feed
channel every caller item followed by exactly one terminator per worker
thread, in order; while the feed channel is full it never sleeps as long
as results are available to drain, and when no results are ever available
it yields nothing while waiting (it only backs off); after every
successful feed it drains at most 10 already-available results, stopping
at the first empty poll. -/
theorem C7_feed_terminators_and_opportunistic_drain {α β : Type}
    (p : AsyncWorkerPool) (its : List α) :
    (∀ (ff : Nat → Bool) (op : Nat → Option β) (fuel tf tq : Nat)
        (tr : List (FeedEv β (QItem α))) (tf2 tq2 : Nat),
      feedAll ff op (p.mapFeedItems its) fuel tf tq = some (tr, tf2, tq2) →
      feedPutsOf tr = its.map QItem.item ++ List.replicate p._loops.length QItem.eos) ∧
    (∀ (ff : Nat → Bool) (op : Nat → Option β),
      (∀ t, ff t = false → ff (t + 1) = false) →
      (∀ t, op t ≠ none) →
      ∀ (fuel tf tq : Nat) (tr : List (FeedEv β (QItem α))) (tf2 tq2 : Nat),
        feedWaitLoop ff op fuel tf tq = some (tr, tf2, tq2) →
        FeedEv.sleepEv ∉ tr) ∧
    (∀ (ff : Nat → Bool) (op : Nat → Option β),
      (∀ t, op t = none) →
      ∀ (fuel tf tq : Nat) (tr : List (FeedEv β (QItem α))) (tf2 tq2 : Nat),
        feedWaitLoop ff op fuel tf tq = some (tr, tf2, tq2) →
        ∀ y : β, FeedEv.yieldEv y ∉ tr) ∧
    (∀ (op : Nat → Option β) (tq : Nat),
      (drainUpTo op 10 tq).1.length ≤ 10
      ∧ (op tq = none → (drainUpTo op 10 tq).1 = [])) := by
  refine ⟨?_, ?_, ?_, ?_⟩
  · intro ff op fuel tf tq tr tf2 tq2 h
    have := feedAll_puts ff op (p.mapFeedItems its) fuel tf tq tr tf2 tq2 h
    simpa [AsyncWorkerPool.mapFeedItems] using this
  · intro ff op hmono hop fuel tf tq tr tf2 tq2 h
    exact feedWaitLoop_never_sleeps ff op hmono hop fuel tf tq tr tf2 tq2 h
  · intro ff op hop fuel tf tq tr tf2 tq2 h
    exact feedWaitLoop_no_yield_when_empty ff op hop fuel tf tq tr tf2 tq2 h
  · intro op tq
    exact ⟨drainUpTo_length_le op 10 tq, fun h => drainUpTo_stops_at_empty op 9 tq h⟩

theorem C7_feed_witness :
    feedPutsOf ([FeedEv.feedPut (QItem.item 7), FeedEv.feedPut QItem.eos,
        FeedEv.feedPut QItem.eos] : List (FeedEv Nat (QItem Nat)))
      = [7].map QItem.item ++ List.replicate 2 QItem.eos
    ∧ FeedEv.sleepEv ∉ ([] : List (FeedEv Nat (QItem Nat)))
    ∧ (∀ y : Nat, FeedEv.yieldEv y ∉ ([] : List (FeedEv Nat (QItem Nat))))
    ∧ ((drainUpTo (fun _ => (none : Option Nat)) 10 0).1.length ≤ 10
        ∧ ((fun _ => (none : Option Nat)) 0 = none →
            (drainUpTo (fun _ => (none : Option Nat)) 10 0).1 = [])) := by
  have h := C7_feed_terminators_and_opportunistic_drain (β := Nat)
    (AsyncWorkerPool.init 2 1 none) ([7] : List Nat)
  exact ⟨h.1 (fun _ => false) (fun _ => none) 1 0 0 _ 3 3 rfl,
    h.2.1 (fun _ => false) (fun _ => some 9) (fun _ _ => rfl)
      (fun _ hc => Option.noConfusion hc) 1 0 0 _ 1 0 rfl,
    h.2.2.1 (fun _ => false) (fun _ => none) (fun _ => rfl) 1 0 0 _ 1 0 rfl,
    h.2.2.2 (fun _ => none) 0⟩
